import Mathlib

/-!
# Verification of `analyze_tree.py` (chess-openings-expectimax)

Shallow embedding of the core of `src/analyze_tree.py`:

* positions are identified by their transposition keys (`board._transposition_key()`),
  modelled as natural numbers; moves are likewise opaque naturals;
* the rules of the game (`board.legal_moves`, `board.push`) are an abstract
  `GameRules` structure: `legalMoves` lists the legal moves of a position and
  `after` gives the position reached by playing a move;
* the UCI engine (`Engine.evaluate`) is modelled as a pair of functions giving,
  for each position, the engine's preferred move and its score (a rational,
  standing for the float win probability);
* Python floats are modelled by rationals `ℚ` (the code only adds, multiplies
  and divides probabilities, so exact rational arithmetic is the faithful
  idealization of the float computation);
* `GameDatabase.htree` (a `collections.Counter` holding both position keys and
  `(key, move)` pairs) is modelled as two total count functions that default
  to `0`, exactly like a `Counter`;
* `Expectimax.etree` (a Python dict from key to `'open'` or a
  `(move, score)` pair) is modelled as an association list `EMap`;
* the recursion of `Expectimax.__search` is fuelled: the Python recursion has
  no termination guarantee over an arbitrary position graph, so the embedding
  takes a fuel parameter and returns `none` when fuel runs out (or on a
  `ZeroDivisionError`); claims are stated about runs that return `some`.
-/

/-- Abstract rules of the game: `legalMoves p` is the list of legal moves of
position `p` (in iteration order of `board.legal_moves`), and `after p m` is
the transposition key of the position reached from `p` by playing `m`
(`board.push(move)` followed by `board._transposition_key()`). -/
structure GameRules where
  legalMoves : Nat → List Nat
  after : Nat → Nat → Nat

/-- The evaluation oracle (class `Engine`, lines 9–34): for every position it
returns a preferred move and a score.  The score models
`info['score'].relative.wdl().expectation()`, documented to lie in `[0, 1]`
from the perspective of the side to move. -/
structure Engine where
  bestMove : Nat → Nat
  score : Nat → ℚ

/-- `Engine.evaluate` (lines 24–34): returns the best move and the score of
the position, from the perspective of the current player. -/
def Engine.evaluate (e : Engine) (pos : Nat) : Nat × ℚ :=
  (e.bestMove pos, e.score pos)

/-- `GameDatabase.htree` (line 41): a `collections.Counter` counting both
position keys and `(key, move)` pairs; missing keys count `0`. -/
structure GameDatabase where
  posCount : Nat → Nat
  moveCount : Nat × Nat → Nat

/-- `GameDatabase.get_board_count` (lines 92–94). -/
def GameDatabase.get_board_count (db : GameDatabase) (pos : Nat) : Nat :=
  db.posCount pos

/-- `GameDatabase.get_move_count` (lines 96–98). -/
def GameDatabase.get_move_count (db : GameDatabase) (pos : Nat) (move : Nat) : Nat :=
  db.moveCount (pos, move)

/-- The per-game inner loop of `GameDatabase.update_tree` (lines 77–88):
starting from position `pos`, replay the game's moves; for each move,
increment the position's count and the `(position, move)` count, and stop
("`break`") as soon as the just-incremented position count equals 1, i.e.
as soon as a position is visited for the very first time. -/
def GameDatabase.update_game (rules : GameRules) :
    GameDatabase → Nat → List Nat → GameDatabase
  | db, _, [] => db
  | db, pos, move :: ms =>
    let db' : GameDatabase :=
      ⟨Function.update db.posCount pos (db.posCount pos + 1),
       Function.update db.moveCount (pos, move) (db.moveCount (pos, move) + 1)⟩
    if db'.posCount pos = 1 then db'
    else GameDatabase.update_game rules db' (rules.after pos move) ms

/-- `GameDatabase.update_tree` over a list of already-downloaded games
(lines 70–89): each game is a move list replayed from the start position. -/
def GameDatabase.update_tree (rules : GameRules) (start : Nat)
    (db : GameDatabase) (games : List (List Nat)) : GameDatabase :=
  games.foldl (fun d g => GameDatabase.update_game rules d start g) db

/-- The sequence of `(position, move)` steps a game visits when replayed in
full from `pos` (the successive `key`/`move` pairs of the loop body of
`update_tree`, ignoring truncation). -/
def gameTrace (rules : GameRules) : Nat → List Nat → List (Nat × Nat)
  | _, [] => []
  | pos, move :: ms => (pos, move) :: gameTrace rules (rules.after pos move) ms

/-- Search context: the fields of `Expectimax.__init__` (lines 109–115) that
the search reads (`engine`, `database`, `treshold` — source spelling kept),
together with the game rules that in the source live inside `chess.Board`. -/
structure SearchCtx where
  rules : GameRules
  engine : Engine
  database : GameDatabase
  treshold : Nat

/-- `Expectimax.most_common` (lines 277–289): the legal moves of `pos` having
nonzero recorded count, paired with `count / total-of-those-counts`, sorted
by descending probability (Python's `list.sort` is stable, and
`insertionSort` with this relation is the same stable descending sort). -/
def SearchCtx.most_common (ctx : SearchCtx) (pos : Nat) : List (ℚ × Nat) :=
  let res : List (Nat × Nat) :=
    (ctx.rules.legalMoves pos).filterMap (fun move =>
      let cnt := ctx.database.get_move_count pos move
      if cnt ≠ 0 then some (cnt, move) else none)
  let total : Nat := (res.map Prod.fst).sum
  let res2 : List (ℚ × Nat) := res.map (fun cm => ((cm.1 : ℚ) / (total : ℚ), cm.2))
  List.insertionSort (fun a b => b.1 ≤ a.1) res2

/-- An entry of `Expectimax.etree`: the string `'open'` or a
`(move, score)` pair, where the move can be `None` (the synthetic root entry
stored by `search` when analysing Black). -/
inductive EEntry where
  | opn : EEntry
  | resolved : Option Nat → ℚ → EEntry
deriving DecidableEq, Repr

/-- `Expectimax.etree` as an association list with unique keys. -/
def EMap := List (Nat × EEntry)

instance : DecidableEq EMap := by unfold EMap; infer_instance

/-- Dictionary lookup `etree[key]` / `key in etree`. -/
def eget : EMap → Nat → Option EEntry
  | [], _ => none
  | (k', v') :: rest, k => if k' = k then some v' else eget rest k

/-- Dictionary assignment `etree[key] = value` (overwrite or insert). -/
def eset : EMap → Nat → EEntry → EMap
  | [], k, v => [(k, v)]
  | (k', v') :: rest, k, v =>
    if k' = k then (k, v) :: rest else (k', v') :: eset rest k v

/-- The stored score of a resolved entry, when present. -/
def escore (t : EMap) (k : Nat) : Option ℚ :=
  match eget t k with
  | some (EEntry.resolved _ s) => some s
  | _ => none

/-- The inner opponent-reply loop of `Expectimax.__search` (lines 170–180):
iterate over the opponent's legal moves `r` from position `pp` (our position
after our candidate move), recursively search the resulting position, and
accumulate the Laplace-smoothed weighted sum `score` and total weight
`denom`.  `srch` is the recursive search at the remaining fuel; the final
`Bool` is ghost instrumentation recording whether any nested call took the
cycle-detection branch (the source computes no such flag; it only makes
cycle-freeness of a run expressible). -/
def replyLoop (ctx : SearchCtx) (srch : EMap → Nat → Option (EMap × ℚ × Bool))
    (pp : Nat) : List Nat → EMap → ℚ → ℚ → Bool → Option (EMap × ℚ × ℚ × Bool)
  | [], etree, score, denom, cyc => some (etree, score, denom, cyc)
  | r :: rs, etree, score, denom, cyc =>
    match srch etree (ctx.rules.after pp r) with
    | none => none
    | some (etree', val, c) =>
      let move_cnt : ℚ := (ctx.database.get_move_count pp r : ℚ) + 1
      replyLoop ctx srch pp rs etree' (score + val * move_cnt) (denom + move_cnt) (cyc || c)

/-- The own-move loop of `Expectimax.__search` (lines 160–186): for each of
our legal moves `m` from `pos`, compute the value of choosing `m` (either
`-engine-score` when the resulting position is below the visit threshold, or
the smoothed average over opponent replies), and keep the running best under
the non-strict `score >= best_score` comparison.  A zero `denom`
(`score /= denom` raising `ZeroDivisionError` in the source) yields `none`. -/
def moveLoop (ctx : SearchCtx) (srch : EMap → Nat → Option (EMap × ℚ × Bool))
    (pos : Nat) : List Nat → EMap → Option Nat → ℚ → Bool →
    Option (EMap × Option Nat × ℚ × Bool)
  | [], etree, best_move, best_score, cyc => some (etree, best_move, best_score, cyc)
  | m :: ms, etree, best_move, best_score, cyc =>
    let pp := ctx.rules.after pos m
    let step : Option (EMap × ℚ × Bool) :=
      if ctx.database.get_board_count pp < ctx.treshold then
        some (etree, -(ctx.engine.score pp), false)
      else
        match replyLoop ctx srch pp (ctx.rules.legalMoves pp) etree 0 0 false with
        | none => none
        | some (etree', score, denom, c) =>
          if denom = 0 then none else some (etree', score / denom, c)
    match step with
    | none => none
    | some (etree', score, c) =>
      if best_score ≤ score then
        moveLoop ctx srch pos ms etree' (some m) score (cyc || c)
      else
        moveLoop ctx srch pos ms etree' best_move best_score (cyc || c)

/-- `Expectimax.__search` (lines 132–189), with fuel.  The result is the
final memo table, the returned score, and the ghost cycle flag.  Branches, in
source order: a memoized `'open'` entry (cycle detected: resolve by a direct
engine evaluation and return it), a memoized resolved entry, the
below-threshold leaf (engine evaluation), and the expectimax move loop
followed by storing `(best_move, best_score)`. -/
def search_aux (ctx : SearchCtx) : Nat → EMap → Nat → Option (EMap × ℚ × Bool)
  | 0, _, _ => none
  | Nat.succ fuel, etree, pos =>
    match eget etree pos with
    | some EEntry.opn =>
      some (eset etree pos (EEntry.resolved (some (ctx.engine.bestMove pos)) (ctx.engine.score pos)),
            ctx.engine.score pos, true)
    | some (EEntry.resolved _ s) => some (etree, s, false)
    | none =>
      let etree1 := eset etree pos EEntry.opn
      if ctx.database.get_board_count pos < ctx.treshold then
        some (eset etree1 pos (EEntry.resolved (some (ctx.engine.bestMove pos)) (ctx.engine.score pos)),
              ctx.engine.score pos, false)
      else
        match moveLoop ctx (search_aux ctx fuel) pos (ctx.rules.legalMoves pos) etree1 none (-1) false with
        | none => none
        | some (etree', best_move, best_score, cyc) =>
          some (eset etree' pos (EEntry.resolved best_move best_score), best_score, cyc)

/-- The root averaging loop of `Expectimax.search` for Black (lines 122–127):
fold over `most_common(root)`, searching each position after a root move and
accumulating `score += p * value`. -/
def blackLoop (ctx : SearchCtx) (fuel : Nat) (root : Nat) :
    List (ℚ × Nat) → EMap → ℚ → Bool → Option (EMap × ℚ × Bool)
  | [], etree, score, cyc => some (etree, score, cyc)
  | (p, move) :: rest, etree, score, cyc =>
    match search_aux ctx fuel etree (ctx.rules.after root move) with
    | none => none
    | some (etree', v, c) => blackLoop ctx fuel root rest etree' (score + p * v) (cyc || c)

/-- `Expectimax.search` (lines 117–130): for White, run `__search` on the
root; for Black, average the sub-searches over the human move distribution of
the root and store the synthetic entry `(None, score)` at the root's key. -/
def search_top (ctx : SearchCtx) (root : Nat) (colorWhite : Bool) (fuel : Nat) :
    Option (EMap × Bool) :=
  if colorWhite then
    match search_aux ctx fuel [] root with
    | none => none
    | some (etree, _, cyc) => some (etree, cyc)
  else
    match blackLoop ctx fuel root (ctx.most_common root) [] 0 false with
    | none => none
    | some (etree, score, cyc) =>
      some (eset etree root (EEntry.resolved none score), cyc)

/-- Structural `mapM` over `Option` (all-or-nothing image of a list). -/
def omap {α β : Type} (f : α → Option β) : List α → Option (List β)
  | [] => some []
  | a :: l =>
    match f a, omap f l with
    | some b, some bs => some (b :: bs)
    | _, _ => none

/-- Dot product of two lists of rationals (zipped pointwise products). -/
def dot (a b : List ℚ) : ℚ := ((a.zip b).map (fun xy => xy.1 * xy.2)).sum

/-- The Laplace weights of the opponent's replies at position `pp`
(`move_count + 1` for each legal reply, in order). -/
def weights (ctx : SearchCtx) (pp : Nat) : List ℚ :=
  (ctx.rules.legalMoves pp).map (fun r => (ctx.database.get_move_count pp r : ℚ) + 1)

/-- The spec's documented per-move value rule, recomputed from a memo table
`t`: the value of choosing move `m` at position `pos` is `-engine-score` of
the resulting position when it is below the visit threshold, and otherwise
the Laplace-smoothed average `Σ_r (count+1)·score_t(after r) / Σ_r (count+1)`
over the opponent's legal replies, reading each reply's value from `t`. -/
def value_m (ctx : SearchCtx) (t : EMap) (pos m : Nat) : Option ℚ :=
  let pp := ctx.rules.after pos m
  if ctx.database.get_board_count pp < ctx.treshold then
    some (-(ctx.engine.score pp))
  else
    match omap (fun r => escore t (ctx.rules.after pp r)) (ctx.rules.legalMoves pp) with
    | none => none
    | some vals =>
      if (weights ctx pp).sum = 0 then none
      else some (dot vals (weights ctx pp) / (weights ctx pp).sum)

/-! ## PV-tree extraction (`__make_pv_tree` / `__push_children`)

The source builds a nested tree of `(value, move, children)` triples, with the
heap holding aliased references to the mutable `children` lists.  The
embedding flattens this: nodes live in one append-only list, each holding the
index of its parent node (`none` for the top level).  The two ghost fields
`pos` (the position a node stands at) and `isEngineNode` (whether the node
was appended by `__push_children`, reading the memo table, rather than by the
heap pop) are determined by the construction and only make the claims
expressible; the source stores neither.  The heap key `mlogp - math.log(pp)`
is replaced by the cumulative path probability itself (the two are
order-isomorphic via the strictly monotone `-log`, and the code only ever
compares keys); the `random.random()` tie-break draws are an explicit stream
`ties`. -/

/-- A node of the flattened PV tree. -/
structure PVNode where
  parent : Option Nat
  val : ℚ
  move : Option Nat
  pos : Nat
  isEngineNode : Bool
deriving DecidableEq, Repr

/-- A heap item of `__make_pv_tree`
(`(-logp, random, p, move, board, subtree)`, line 238), with the key stored
as the cumulative probability (descending order) and the subtree reference as
the parent node index. -/
structure QItem where
  key : ℚ
  tie : ℚ
  p : ℚ
  move : Nat
  pos : Nat
  parent : Option Nat
deriving DecidableEq, Repr

/-- Heap priority: `a` is popped before `b` when its cumulative probability
is larger (`-log` smaller), with the random draw as tie-break. -/
def qBetter (a b : QItem) : Bool :=
  (b.key < a.key) || (b.key == a.key && a.tie < b.tie)

/-- `heapq.heappop`: remove a best item (first-pushed among exact ties). -/
def popBest : List QItem → Option (QItem × List QItem)
  | [] => none
  | x :: xs =>
    let b := xs.foldl (fun acc y => if qBetter y acc then y else acc) x
    some (b, (x :: xs).erase b)

/-- Context for PV-tree extraction: the search context, the memo table
produced by the search, the root position, and the tie-break stream. -/
structure PVCtx extends SearchCtx where
  etree : EMap
  root : Nat
  ties : Nat → ℚ

/-- The frontier-pushing loop of `__push_children` (lines 272–274): one heap
push per `most_common` entry of the position `pos2` reached after the stored
move; `cnt` indexes the tie-break stream. -/
def pushMoves (ctx : PVCtx) (curP : ℚ) (pos2 : Nat) (parentIdx : Nat) :
    List (ℚ × Nat) → List QItem → Nat → List QItem × Nat
  | [], q, cnt => (q, cnt)
  | (pp, m) :: rest, q, cnt =>
    pushMoves ctx curP pos2 parentIdx rest
      (q ++ [⟨curP * pp, ctx.ties cnt, pp, m, ctx.rules.after pos2 m, some parentIdx⟩])
      (cnt + 1)

/-- `Expectimax.__push_children` (lines 255–274): if `pos` has no memo entry,
return everything unchanged (silent stop); otherwise append the engine node
carrying the stored `(move, score)`, advance past the stored move unless it
is the synthetic root `None`, and push the human-weighted continuations.  An
`'open'` entry would make the source's tuple unpacking raise, hence `none`. -/
def push_children (ctx : PVCtx) (q : List QItem) (nodes : List PVNode)
    (curP : ℚ) (pos : Nat) (parent : Option Nat) (cnt : Nat) :
    Option (List QItem × List PVNode × Nat) :=
  match eget ctx.etree pos with
  | none => some (q, nodes, cnt)
  | some EEntry.opn => none
  | some (EEntry.resolved move score) =>
    let idx := nodes.length
    let nodes' := nodes ++ [⟨parent, score, move, pos, true⟩]
    let pos2 := match move with
      | some m => ctx.rules.after pos m
      | none => pos
    let qc := pushMoves ctx curP pos2 idx (ctx.toSearchCtx.most_common pos2) q cnt
    some (qc.1, nodes', qc.2)

/-- The `while n != 0 and q` loop of `__make_pv_tree` (lines 242–251): pop a
best item, materialize its human node under its designated parent, and expand
its position. -/
def pv_loop (ctx : PVCtx) : Nat → List QItem → List PVNode → Nat →
    Option (List PVNode)
  | 0, _, nodes, _ => some nodes
  | Nat.succ n, q, nodes, cnt =>
    match popBest q with
    | none => some nodes
    | some (it, q') =>
      let idx := nodes.length
      let nodes' := nodes ++ [⟨it.parent, it.p, some it.move, it.pos, false⟩]
      match push_children ctx q' nodes' it.key it.pos (some idx) cnt with
      | none => none
      | some (q2, nodes2, cnt') => pv_loop ctx n q2 nodes2 cnt'

/-- `Expectimax.__make_pv_tree` (lines 234–253): seed with the root's
children, then pop/materialize up to `n` nodes. -/
def make_pv_tree (ctx : PVCtx) (n : Nat) : Option (List PVNode) :=
  match push_children ctx [] [] 1 ctx.root none 0 with
  | none => none
  | some (q, nodes, cnt) => pv_loop ctx n q nodes cnt


/-! ## Specification-side predicates -/

/-- The position one step past a stored entry during PV extraction: advance
by the stored move unless it is the synthetic root `None` (lines 269–270). -/
def stepPos (rules : GameRules) (pos : Nat) : Option Nat → Nat
  | some m => rules.after pos m
  | none => pos

/-- Positions reachable by the move/counter-move alternation rule of the
PV-tree extraction: the root is reachable; from a reachable position with a
memoized entry, advance past its stored move and follow any `most_common`
continuation. -/
inductive AltReach (ctx : PVCtx) : Nat → Prop
  | root : AltReach ctx ctx.root
  | step (pos : Nat) (mv : Option Nat) (s p : ℚ) (m : Nat) :
      AltReach ctx pos →
      eget ctx.etree pos = some (EEntry.resolved mv s) →
      (p, m) ∈ ctx.toSearchCtx.most_common (stepPos ctx.rules pos mv) →
      AltReach ctx (ctx.rules.after (stepPos ctx.rules pos mv) m)

/-- `t'` retains every resolved entry of `t` unchanged. -/
def keeps (t t' : EMap) : Prop :=
  ∀ k mv s, eget t k = some (EEntry.resolved mv s) → eget t' k = some (EEntry.resolved mv s)

/-- `t'` retains every `'open'` marker of `t`. -/
def opensKept (t t' : EMap) : Prop :=
  ∀ k, eget t k = some EEntry.opn → eget t' k = some EEntry.opn

/-- Every stored score readable from `t` is still readable from `t'`. -/
def valueKept (t t' : EMap) : Prop :=
  ∀ k v, escore t k = some v → escore t' k = some v

/-- All scores stored in a memo table lie in `[-1, 1]`. -/
def scoreBounded (t : EMap) : Prop :=
  ∀ k mv s, eget t k = some (EEntry.resolved mv s) → -1 ≤ s ∧ s ≤ 1

/-- Coherence of a memo table with the spec's documented expectimax rule:
every resolved entry of an above-threshold position stores the best (under
the source's fold with initial value `-1`) of the per-move values recomputed
from the table itself. -/
def goodTable (ctx : SearchCtx) (t : EMap) : Prop :=
  ∀ k mv s, eget t k = some (EEntry.resolved mv s) →
    ctx.treshold ≤ ctx.database.get_board_count k →
    ∃ vals, omap (value_m ctx t k) (ctx.rules.legalMoves k) = some vals
      ∧ s = vals.foldl max (-1)

/-- The contract a recursive-search callback is assumed to satisfy:
resolved entries are kept, the searched position ends resolved at the
returned value, and cycle-free calls keep `'open'` markers and preserve
table coherence. -/
def SAP (ctx : SearchCtx) (srch : EMap → Nat → Option (EMap × ℚ × Bool)) : Prop :=
  ∀ T p T' v c, srch T p = some (T', v, c) →
    keeps T T' ∧ (∃ mv, eget T' p = some (EEntry.resolved mv v))
      ∧ (c = false → opensKept T T' ∧ (goodTable ctx T → goodTable ctx T'))

/-- The running-best selection of the move loop (lines 184–186), as a pure
fold over `(move, value)` pairs with the source's non-strict comparison. -/
def bestFoldP : List (Nat × ℚ) → Option Nat × ℚ → Option Nat × ℚ
  | [], b => b
  | (m, v) :: rest, b => if b.2 ≤ v then bestFoldP rest (some m, v) else bestFoldP rest b

/-! ## Concrete instantiation data used by witnesses and counterexamples -/

/-- A small concrete game used to instantiate theorems: position `0` has
legal moves `10` and `11`, with human counts `3` and `1`. -/
def wRules : GameRules := ⟨fun p => if p = 0 then [10, 11] else [], fun p m => p * 100 + m⟩

def wEngine : Engine := ⟨fun _ => 7, fun _ => 1/2⟩

def wCtx : SearchCtx :=
  ⟨wRules, wEngine,
   ⟨fun _ => 0, fun km => if km = (0, 10) then 3 else if km = (0, 11) then 1 else 0⟩, 1⟩

def wCtxZero : SearchCtx := ⟨wRules, wEngine, ⟨fun _ => 0, fun _ => 0⟩, 1⟩

/-- Rules and database for the C3 witness: positions `0` and `1` are already
known (counts 2 and 3), everything else unseen. -/
def wC3Rules : GameRules := ⟨fun _ => [], fun p m => p + m⟩

def wC3Db : GameDatabase :=
  ⟨fun p => if p = 0 then 2 else if p = 1 then 3 else 0, fun _ => 0⟩


/-- A two-ply repetition cycle `0 → 1 → 0` (our move `10`, opponent reply
`20`), with a second opponent reply `21` to a below-threshold position `2`;
both `0` and `1` are above the visit threshold. -/
def cycRules : GameRules :=
  ⟨fun p => if p = 0 then [10] else if p = 1 then [20, 21] else [],
   fun p m => if (p, m) = (0, 10) then 1 else if (p, m) = (1, 20) then 0 else
     if (p, m) = (1, 21) then 2 else 99⟩

def cycEngine : Engine :=
  ⟨fun _ => 77, fun p => if p = 0 then 1/2 else if p = 2 then 1/4 else 0⟩

def cycDb : GameDatabase :=
  ⟨fun p => if p = 0 then 5 else if p = 1 then 5 else 0, fun _ => 0⟩

def cycCtx : SearchCtx := ⟨cycRules, cycEngine, cycDb, 1⟩

/-- The final memo table of the cyclic run `search_aux cycCtx 10 [] 0`. -/
def cycT : EMap :=
  [(0, EEntry.resolved (some 10) (3/8)), (2, EEntry.resolved (some 77) (1/4))]

/-- A one-move game whose only continuation is a below-threshold leaf with
engine score `3/5`: the search stores the negative value `-(3/5)`. -/
def c6Ctx : SearchCtx :=
  ⟨⟨fun p => if p = 0 then [10] else [], fun p m => if (p, m) = (0, 10) then 1 else 99⟩,
   ⟨fun _ => 7, fun p => if p = 1 then 3/5 else 0⟩,
   ⟨fun p => if p = 0 then 1 else 0, fun _ => 0⟩, 1⟩

/-- Two legal moves from position `0` to two below-threshold leaves with the
same engine score: the per-move values tie at `-(1/3)`. -/
def c7Ctx : SearchCtx :=
  ⟨⟨fun p => if p = 0 then [10, 11] else [],
    fun p m => if (p, m) = (0, 10) then 1 else if (p, m) = (0, 11) then 2 else 99⟩,
   ⟨fun _ => 7, fun p => if p = 1 then 1/3 else if p = 2 then 1/3 else 0⟩,
   ⟨fun p => if p = 0 then 1 else 0, fun _ => 0⟩, 1⟩

/-- PV-extraction data: root `0` resolved with move `10` to position `1`,
whose human continuations `30, 31, 32` (probabilities 1/2, 3/10, 1/5) lead to
`3`, `4`, `5`; only `5` is also resolved. -/
def c8Rules : GameRules :=
  ⟨fun p => if p = 1 then [30, 31, 32] else [],
   fun p m => if (p, m) = (0, 10) then 1 else if (p, m) = (1, 30) then 3 else
     if (p, m) = (1, 31) then 4 else if (p, m) = (1, 32) then 5 else 99⟩

def c8Db : GameDatabase :=
  ⟨fun _ => 0, fun km => if km = (1, 30) then 5 else if km = (1, 31) then 3 else
    if km = (1, 32) then 2 else 0⟩

def c8T : EMap :=
  [(0, EEntry.resolved (some 10) (1/2)), (5, EEntry.resolved (some 40) (1/4))]

def c8Ctx : PVCtx := ⟨⟨c8Rules, cycEngine, c8Db, 1⟩, c8T, 0, fun n => (n : ℚ) / 100⟩

/-- PV-extraction data with a transposition: the two human continuations
`30` and `31` from position `1` both lead to the resolved position `3`. -/
def c8dRules : GameRules :=
  ⟨fun p => if p = 1 then [30, 31] else [],
   fun p m => if (p, m) = (0, 10) then 1 else if (p, m) = (1, 30) then 3 else
     if (p, m) = (1, 31) then 3 else 99⟩

def c8dDb : GameDatabase :=
  ⟨fun _ => 0, fun km => if km = (1, 30) then 1 else if km = (1, 31) then 1 else 0⟩

def c8dT : EMap :=
  [(0, EEntry.resolved (some 10) (1/2)), (3, EEntry.resolved (some 40) (1/4))]

def c8dCtx : PVCtx := ⟨⟨c8dRules, cycEngine, c8dDb, 1⟩, c8dT, 0, fun n => (n : ℚ) / 100⟩

/-! ## Basic lemmas -/

theorem eget_eset_self (t : EMap) (k : Nat) (v : EEntry) : eget (eset t k v) k = some v := by
  induction t with
  | nil => simp [eset, eget]
  | cons hd tl ih =>
    by_cases h : hd.1 = k
    · simp [eset, eget, h]
    · simpa [eset, eget, h] using ih

theorem eget_eset_ne (t : EMap) (k k' : Nat) (v : EEntry) (h : k ≠ k') :
    eget (eset t k v) k' = eget t k' := by
  induction t with
  | nil => simp [eset, eget, h]
  | cons hd tl ih =>
    by_cases hh : hd.1 = k
    · simp [eset, eget, hh, h]
    · simp only [eset, hh, if_false, eget]
      by_cases hk : hd.1 = k' <;> simp [hk, ih]

theorem omap_mono {α β : Type} {f g : α → Option β}
    (h : ∀ a b, f a = some b → g a = some b) :
    ∀ l bs, omap f l = some bs → omap g l = some bs := by
  intro l
  induction l with
  | nil => intro bs hb; simpa [omap] using hb
  | cons a l ih =>
    intro bs hb
    simp only [omap] at hb ⊢
    cases hfa : f a with
    | none => rw [hfa] at hb; cases hb
    | some b =>
      rw [hfa] at hb
      cases hol : omap f l with
      | none => rw [hol] at hb; cases hb
      | some bs' =>
        rw [hol] at hb
        cases hb
        rw [h a b hfa, ih bs' hol]

theorem omap_length {α β : Type} {f : α → Option β} :
    ∀ {l : List α} {bs : List β}, omap f l = some bs → bs.length = l.length := by
  intro l
  induction l with
  | nil => intro bs hb; simp [omap] at hb; simp [← hb]
  | cons a l ih =>
    intro bs hb
    simp only [omap] at hb
    cases hfa : f a with
    | none => rw [hfa] at hb; cases hb
    | some b =>
      rw [hfa] at hb
      cases hol : omap f l with
      | none => rw [hol] at hb; cases hb
      | some bs' => rw [hol] at hb; cases hb; simp [ih hol]

theorem filterMap_if {α β : Type} (q : α → Nat) (g : α → β) (l : List α) :
    l.filterMap (fun a => if q a ≠ 0 then some (g a) else none)
      = (l.filter (fun a => q a != 0)).map g := by
  induction l with
  | nil => rfl
  | cons a l ih =>
    by_cases h : q a = 0
    · simp only [List.filterMap_cons, List.filter_cons, ih]
      simp [h]
    · simp only [List.filterMap_cons, List.filter_cons, ih]
      simp [h]

theorem sum_map_div (l : List ℚ) (c : ℚ) :
    (l.map (fun x => x / c)).sum = l.sum / c := by
  induction l with
  | nil => simp
  | cons a l ih => simp [add_div, ih]

theorem natCast_list_sum (l : List ℕ) :
    ((l.sum : ℕ) : ℚ) = (l.map (fun n => (n : ℚ))).sum := by
  induction l with
  | nil => simp
  | cons a l ih => simp [ih]

/-! ## Claim C10: `most_common` on positions with no recorded moves -/

/-- C10: for every position in which no legal move has a nonzero recorded
count (including positions with no legal moves at all), `most_common` returns
the empty list; the division by the count total is performed per recorded
move only, so a zero total never causes a division by zero (in the model,
`most_common` is a total function). -/
theorem c10_most_common_empty (ctx : SearchCtx) (pos : Nat)
    (h : ∀ m ∈ ctx.rules.legalMoves pos, ctx.database.get_move_count pos m = 0) :
    ctx.most_common pos = [] := by
  unfold SearchCtx.most_common
  have hfm : (ctx.rules.legalMoves pos).filterMap (fun move =>
      if ctx.database.get_move_count pos move ≠ 0 then
        some (ctx.database.get_move_count pos move, move) else none) = [] := by
    rw [filterMap_if (fun m => ctx.database.get_move_count pos m)
      (fun m => (ctx.database.get_move_count pos m, m))]
    have : (ctx.rules.legalMoves pos).filter
        (fun m => ctx.database.get_move_count pos m != 0) = [] := by
      rw [List.filter_eq_nil_iff]
      intro a ha
      simp [h a ha]
    simp [this]
  simp only [hfm]
  simp [List.insertionSort]

/-- Witness for C10 at a concrete position with two legal moves, none
recorded. -/
theorem c10_witness : wCtxZero.most_common 0 = [] :=
  c10_most_common_empty wCtxZero 0 (by decide)

/-- Cast of a summed count list into `ℚ`, pointwise. -/
theorem natCast_sum_map {α : Type} (q : α → ℕ) (l : List α) :
    (((l.map q).sum : ℕ) : ℚ) = (l.map (fun a => ((q a : ℕ) : ℚ))).sum := by
  induction l with
  | nil => simp
  | cons a l ih => simp [ih]

/-! ## Claim C5: the contract of `most_common` -/

/-- C5: `most_common` returns exactly the legal moves with nonzero recorded
human count (as a permutation of the filtered legal-move list, each paired
with its own count divided by the total of the nonzero counts), sorted in
descending order of probability, and whenever the result is non-empty the
probabilities sum to exactly 1. -/
theorem c5_most_common_spec (ctx : SearchCtx) (pos : Nat) :
    (ctx.most_common pos).Perm
        (((ctx.rules.legalMoves pos).filter
            (fun m => ctx.database.get_move_count pos m != 0)).map
          (fun m => ((ctx.database.get_move_count pos m : ℚ) /
              (((((ctx.rules.legalMoves pos).filter
                  (fun m' => ctx.database.get_move_count pos m' != 0)).map
                (fun m' => ctx.database.get_move_count pos m')).sum : ℕ) : ℚ), m)))
      ∧ (ctx.most_common pos).Sorted (fun a b => b.1 ≤ a.1)
      ∧ (ctx.most_common pos ≠ [] → ((ctx.most_common pos).map Prod.fst).sum = 1) := by
  have hmc : ctx.most_common pos
      = List.insertionSort (fun a b => b.1 ≤ a.1)
          (((ctx.rules.legalMoves pos).filter
              (fun m => ctx.database.get_move_count pos m != 0)).map
            (fun m => ((ctx.database.get_move_count pos m : ℚ) /
                (((((ctx.rules.legalMoves pos).filter
                    (fun m' => ctx.database.get_move_count pos m' != 0)).map
                  (fun m' => ctx.database.get_move_count pos m')).sum : ℕ) : ℚ), m))) := by
    unfold SearchCtx.most_common
    rw [filterMap_if (fun m => ctx.database.get_move_count pos m)
      (fun m => (ctx.database.get_move_count pos m, m))]
    simp only [List.map_map]
    rfl
  set L := (ctx.rules.legalMoves pos).filter
    (fun m => ctx.database.get_move_count pos m != 0) with hL
  set T : ℕ := (L.map (fun m' => ctx.database.get_move_count pos m')).sum with hT
  refine ⟨hmc ▸ List.perm_insertionSort _ _, ?_, ?_⟩
  · letI : IsTotal (ℚ × Nat) (fun a b => b.1 ≤ a.1) := ⟨fun a b => le_total b.1 a.1⟩
    letI : IsTrans (ℚ × Nat) (fun a b => b.1 ≤ a.1) :=
      ⟨fun _ _ _ hab hbc => le_trans hbc hab⟩
    rw [hmc]
    exact List.sorted_insertionSort _ _
  · intro hne
    have hLne : L ≠ [] := by
      intro h0
      apply hne
      rw [hmc, h0]
      rfl
    have hTne : T ≠ 0 := by
      intro h0
      rcases List.exists_mem_of_ne_nil L hLne with ⟨a, ha⟩
      have hz := List.sum_eq_zero_iff.mp h0 (ctx.database.get_move_count pos a)
        (List.mem_map_of_mem _ ha)
      have := (List.mem_filter.mp ha).2
      simp [hz] at this
    have h2 : (ctx.most_common pos).Perm
        (L.map (fun m => ((ctx.database.get_move_count pos m : ℚ) / (T : ℚ), m))) := by
      rw [hmc]
      exact List.perm_insertionSort _ _
    have hsum := (h2.map Prod.fst).sum_eq
    rw [hsum, List.map_map]
    have hcomp : ((fun p : ℚ × Nat => p.1) ∘
        (fun m => ((ctx.database.get_move_count pos m : ℚ) / (T : ℚ), m)))
        = fun m => (ctx.database.get_move_count pos m : ℚ) / (T : ℚ) := rfl
    rw [hcomp]
    have hdiv : (L.map (fun m => (ctx.database.get_move_count pos m : ℚ) / (T : ℚ))).sum
        = (L.map (fun m => (ctx.database.get_move_count pos m : ℚ))).sum / (T : ℚ) := by
      have h3 := sum_map_div (L.map (fun m => (ctx.database.get_move_count pos m : ℚ))) (T : ℚ)
      rw [List.map_map] at h3
      exact h3
    rw [hdiv]
    have hcast : (L.map (fun m => (ctx.database.get_move_count pos m : ℚ))).sum = (T : ℚ) := by
      rw [hT, natCast_sum_map]
    rw [hcast, div_self (by exact_mod_cast hTne)]

/-- Witness for C5 at the concrete context `wCtx` (counts 3 and 1): the
probabilities sum to 1. -/
theorem c5_witness : ((wCtx.most_common 0).map Prod.fst).sum = 1 := by
  apply (c5_most_common_spec wCtx 0).2.2
  have h1 : wCtx.most_common 0 = [(3/4, 10), (1/4, 11)] := by
    norm_num [SearchCtx.most_common, wCtx, wRules, wEngine, List.insertionSort,
      List.orderedInsert, GameDatabase.get_move_count, List.filterMap_cons,
      Function.comp]
  rw [h1]
  simp

/-! ## Claim C9: missing memoization entry during PV extraction -/

/-- C9: during PV-tree extraction, expanding a position with no entry in the
memoization table silently stops that branch: `__push_children` returns the
frontier, the node list and the tie-break counter unchanged, materializes no
node for the position, pushes nothing, and raises no error (the `none` result
of the model, reserved for the source's genuine unpacking error on an
`'open'` entry, is not produced). -/
theorem c9_missing_entry_silent (ctx : PVCtx) (q : List QItem) (nodes : List PVNode)
    (curP : ℚ) (pos : Nat) (parent : Option Nat) (cnt : Nat)
    (h : eget ctx.etree pos = none) :
    push_children ctx q nodes curP pos parent cnt = some (q, nodes, cnt) := by
  simp [push_children, h]

/-- Witness for C9: a context whose memo table only holds position `0`,
expanded at position `5`. -/
theorem c9_witness :
    push_children ⟨wCtx, [(0, EEntry.resolved (some 10) (1/2))], 0, fun _ => 0⟩
      [] [] 1 5 none 0 = some ([], [], 0) :=
  c9_missing_entry_silent _ [] [] 1 5 none 0 (by norm_num [eget])

/-! ## Claim C3: the truncation rule of `update_tree` -/



theorem posCount_mk (f : Nat → Nat) (g : Nat × Nat → Nat) :
    (GameDatabase.mk f g).posCount = f := rfl

theorem moveCount_mk (f : Nat → Nat) (g : Nat × Nat → Nat) :
    (GameDatabase.mk f g).moveCount = g := rfl

/-- C3: ingesting a single game increments at most one position whose count
transitions from zero to nonzero (first conjunct), and against a database in
which every position along the game's full trace already has a nonzero
count, it increments every position count and every move count along the
full line, by exactly the number of occurrences in the trace (second
conjunct). -/
theorem c3_truncation_invariant (rules : GameRules) (db : GameDatabase)
    (start : Nat) (ms : List Nat) :
    (∀ p q : Nat,
        db.posCount p = 0 → (GameDatabase.update_game rules db start ms).posCount p ≠ 0 →
        db.posCount q = 0 → (GameDatabase.update_game rules db start ms).posCount q ≠ 0 →
        p = q)
      ∧ ((∀ pm ∈ gameTrace rules start ms, db.posCount pm.1 ≠ 0) →
          (∀ p : Nat, (GameDatabase.update_game rules db start ms).posCount p
              = db.posCount p + ((gameTrace rules start ms).map Prod.fst).count p)
            ∧ (∀ pm : Nat × Nat, (GameDatabase.update_game rules db start ms).moveCount pm
              = db.moveCount pm + (gameTrace rules start ms).count pm)) := by
  constructor
  · induction ms generalizing db start with
    | nil =>
      intro p q hp hp' _ _
      simp [GameDatabase.update_game] at hp'
      exact absurd hp hp'
    | cons m ms ih =>
      intro p q hp hp' hq hq'
      simp only [GameDatabase.update_game, posCount_mk, moveCount_mk] at hp' hq'
      by_cases hz : db.posCount start = 0
      · -- first step is fresh: the loop stops immediately at `start`
        rw [if_pos (by rw [Function.update_same, hz])] at hp' hq'
        simp only [posCount_mk] at hp' hq'
        have hpp : p = start := by
          by_contra hppne
          rw [Function.update_noteq hppne] at hp'
          exact hp' hp
        have hqq : q = start := by
          by_contra hqqne
          rw [Function.update_noteq hqqne] at hq'
          exact hq' hq
        rw [hpp, hqq]
      · -- first step is an old position: recurse
        rw [if_neg (by rw [Function.update_same]; simpa using hz)] at hp' hq'
        have hps : p ≠ start := fun h => hz (h ▸ hp)
        have hqs : q ≠ start := fun h => hz (h ▸ hq)
        refine ih _ _ p q ?_ hp' ?_ hq'
        · rw [posCount_mk, Function.update_noteq hps]
          exact hp
        · rw [posCount_mk, Function.update_noteq hqs]
          exact hq
  · induction ms generalizing db start with
    | nil =>
      intro _
      constructor <;> intro x <;> simp [GameDatabase.update_game, gameTrace]
    | cons m ms ih =>
      intro hall
      have hstart : db.posCount start ≠ 0 := hall (start, m) (by simp [gameTrace])
      simp only [GameDatabase.update_game, posCount_mk, moveCount_mk]
      rw [if_neg (by rw [Function.update_same]; simpa using hstart)]
      have hrec := ih
        (GameDatabase.mk (Function.update db.posCount start (db.posCount start + 1))
          (Function.update db.moveCount (start, m) (db.moveCount (start, m) + 1)))
        (rules.after start m)
        (by
          intro pm hpm
          rw [posCount_mk]
          have hnz := hall pm (by simp [gameTrace, hpm])
          by_cases hpm1 : pm.1 = start
          · rw [hpm1, Function.update_same]
            simp
          · rw [Function.update_noteq hpm1]
            exact hnz)
      constructor
      · intro p
        rw [hrec.1 p, posCount_mk]
        simp only [gameTrace, List.map_cons, List.count_cons]
        by_cases hps : p = start
        · subst hps
          rw [Function.update_same]
          simp
          ring
        · rw [Function.update_noteq hps]
          have hbe : (start == p) = false := by simp [Ne.symm hps]
          simp [hbe]
      · intro pm
        rw [hrec.2 pm, moveCount_mk]
        simp only [gameTrace, List.count_cons]
        by_cases hpm : pm = (start, m)
        · subst hpm
          rw [Function.update_same]
          simp
          ring
        · rw [Function.update_noteq hpm]
          have hbe : ((start, m) == pm) = false := by simp [Ne.symm hpm]
          simp [hbe]

/-- Witness for C3: re-ingesting the game `0 →1→ 1 →2→ 3` over known
positions increments position `1` from 3 to 4; ingesting a game from the
unseen position `5` makes `5` the unique fresh position. -/
theorem c3_witness :
    (GameDatabase.update_game wC3Rules wC3Db 0 [1, 2]).posCount 1 = 4
    ∧ (5 : Nat) = 5 := by
  constructor
  · have h := (c3_truncation_invariant wC3Rules wC3Db 0 [1, 2]).2
      (by decide)
    rw [(h.1 1 : _)]
    decide
  · exact (c3_truncation_invariant wC3Rules wC3Db 5 [7]).1 5 5
      (by decide) (by decide) (by decide) (by decide)

/-! ## Counterexamples -/

/-- C1 counterexample: in the cyclic run `search_aux cycCtx 10 [] 0`,
position `0` is resolved, is above threshold and has the single legal move
`10`, yet its stored best value `3/8` differs from the per-move value
`5/16` recomputed from the stored memoization table: the cycle resolution
returned an oracle value that the outer expansion later overwrote. -/
theorem c1_counterexample :
    search_aux cycCtx 10 [] 0 = some (cycT, 3/8, true)
      ∧ eget cycT 0 = some (EEntry.resolved (some 10) (3/8))
      ∧ cycCtx.treshold ≤ cycCtx.database.get_board_count 0
      ∧ cycCtx.rules.legalMoves 0 = [10]
      ∧ value_m cycCtx cycT 0 10 = some (5/16)
      ∧ (3/8 : ℚ) ≠ 5/16 := by
  refine ⟨?_, ?_, ?_, ?_, ?_, by norm_num⟩
  · norm_num [search_aux, moveLoop, replyLoop, cycCtx, cycRules, cycEngine, cycDb,
      cycT, eget, eset, GameDatabase.get_board_count, GameDatabase.get_move_count]
  · norm_num [cycT, eget]
  · norm_num [cycCtx, cycDb, GameDatabase.get_board_count]
  · norm_num [cycCtx, cycRules]
  · norm_num [value_m, cycCtx, cycRules, cycDb, cycT, omap, escore, eget, weights, dot,
      GameDatabase.get_board_count, GameDatabase.get_move_count]

/-- C2 counterexample: in the same cyclic run the repeated position `0` is
finally stored with the outer expansion's value `3/8`, not the oracle's
direct evaluation `1/2` of position `0`. -/
theorem c2_counterexample :
    search_aux cycCtx 10 [] 0 = some (cycT, 3/8, true)
      ∧ escore cycT 0 = some (3/8)
      ∧ cycCtx.engine.score 0 = 1/2
      ∧ (3/8 : ℚ) ≠ 1/2 := by
  refine ⟨?_, ?_, ?_, by norm_num⟩
  · norm_num [search_aux, moveLoop, replyLoop, cycCtx, cycRules, cycEngine, cycDb,
      cycT, eget, eset, GameDatabase.get_board_count, GameDatabase.get_move_count]
  · norm_num [cycT, escore, eget]
  · norm_num [cycCtx, cycEngine]

/-- C6 counterexample: a run in which the search stores and returns the
negative value `-(3/5)`, outside `[0, 1]`. -/
theorem c6_counterexample :
    search_aux c6Ctx 5 [] 0
        = some ([(0, EEntry.resolved (some 10) (-(3/5)))], -(3/5), false)
      ∧ escore [(0, EEntry.resolved (some 10) (-(3/5)))] 0 = some (-(3/5))
      ∧ ¬(0 ≤ (-(3/5) : ℚ)) := by
  refine ⟨?_, ?_, by norm_num⟩
  · norm_num [search_aux, moveLoop, replyLoop, c6Ctx, eget, eset,
      GameDatabase.get_board_count, GameDatabase.get_move_count]
  · norm_num [escore, eget]

/-- C7 counterexample: both legal moves of position `0` have the same value
`-(1/3)`, and the stored best move is the *last*-seen one (`11`), not the
first-seen one (`10`) as the claim states. -/
theorem c7_counterexample :
    search_aux c7Ctx 5 [] 0
        = some ([(0, EEntry.resolved (some 11) (-(1/3)))], -(1/3), false)
      ∧ c7Ctx.rules.legalMoves 0 = [10, 11]
      ∧ -(c7Ctx.engine.score (c7Ctx.rules.after 0 10))
          = -(c7Ctx.engine.score (c7Ctx.rules.after 0 11))
      ∧ (some 11 : Option Nat) ≠ some 10 := by
  refine ⟨?_, ?_, ?_, by norm_num⟩
  · norm_num [search_aux, moveLoop, replyLoop, c7Ctx, eget, eset,
      GameDatabase.get_board_count, GameDatabase.get_move_count]
  · norm_num [c7Ctx]
  · norm_num [c7Ctx]

/-- C8 counterexample, three parts.  (1) With `n = 0` the extraction is not
empty: it already contains the root's node.  (2) With `n = 2`, which equals
the total number of resolved positions of `c8T`, the resolved position `5`
is reachable by the alternation rule yet no node for it is materialized, so
the tree does not contain *exactly* the reachable resolved positions.
(3) Under a transposition (`c8dCtx`), a resolved position's node is
materialized twice, so nodes are not unique. -/
theorem c8_counterexample :
    (make_pv_tree c8Ctx 0 = some [⟨none, 1/2, some 10, 0, true⟩]
      ∧ (some [(⟨none, 1/2, some 10, 0, true⟩ : PVNode)] : Option (List PVNode)) ≠ some [])
    ∧ (c8T.length = 2
      ∧ make_pv_tree c8Ctx 2 = some
          [⟨none, 1/2, some 10, 0, true⟩,
           ⟨some 0, 1/2, some 30, 3, false⟩,
           ⟨some 0, 3/10, some 31, 4, false⟩]
      ∧ eget c8T 5 = some (EEntry.resolved (some 40) (1/4))
      ∧ AltReach c8Ctx 5
      ∧ ∀ nd ∈ [(⟨none, 1/2, some 10, 0, true⟩ : PVNode),
           ⟨some 0, 1/2, some 30, 3, false⟩,
           ⟨some 0, 3/10, some 31, 4, false⟩],
          ¬(nd.isEngineNode = true ∧ nd.pos = 5))
    ∧ (c8dT.length = 2
      ∧ make_pv_tree c8dCtx 2 = some
          [⟨none, 1/2, some 10, 0, true⟩,
           ⟨some 0, 1/2, some 30, 3, false⟩,
           ⟨some 1, 1/4, some 40, 3, true⟩,
           ⟨some 0, 1/2, some 31, 3, false⟩,
           ⟨some 3, 1/4, some 40, 3, true⟩]
      ∧ ([(⟨none, 1/2, some 10, 0, true⟩ : PVNode),
           ⟨some 0, 1/2, some 30, 3, false⟩,
           ⟨some 1, 1/4, some 40, 3, true⟩,
           ⟨some 0, 1/2, some 31, 3, false⟩,
           ⟨some 3, 1/4, some 40, 3, true⟩].countP
          (fun nd => nd.isEngineNode && nd.pos == 3)) = 2) := by
  refine ⟨⟨?_, by simp⟩, ⟨by norm_num [c8T], ?_, by norm_num [c8T, eget], ?_, ?_⟩,
    ⟨by norm_num [c8dT], ?_, by rfl⟩⟩
  · norm_num [make_pv_tree, pv_loop, push_children, pushMoves, popBest, qBetter,
      SearchCtx.most_common, List.insertionSort, List.orderedInsert, List.filterMap_cons,
      c8Ctx, c8Rules, c8Db, c8T, cycEngine, eget, GameDatabase.get_move_count, stepPos]
  · norm_num [make_pv_tree, pv_loop, push_children, pushMoves, popBest, qBetter,
      SearchCtx.most_common, List.insertionSort, List.orderedInsert, List.filterMap_cons,
      c8Ctx, c8Rules, c8Db, c8T, cycEngine, eget, GameDatabase.get_move_count, stepPos,
      List.erase, List.foldl]
  · have hmc : c8Ctx.toSearchCtx.most_common 1 = [(1/2, 30), (3/10, 31), (1/5, 32)] := by
      norm_num [SearchCtx.most_common, List.insertionSort, List.orderedInsert,
        List.filterMap_cons, c8Ctx, c8Rules, c8Db, GameDatabase.get_move_count]
    have hstep := @AltReach.step c8Ctx 0 (some 10) (1/2) (1/5) 32
      AltReach.root
      (by norm_num [c8Ctx, c8T, eget])
      (by
        have h1 : stepPos c8Ctx.rules 0 (some 10) = 1 := by norm_num [stepPos, c8Ctx, c8Rules]
        rw [h1, hmc]
        simp)
    have h2 : c8Ctx.rules.after (stepPos c8Ctx.rules 0 (some 10)) 32 = 5 := by
      norm_num [stepPos, c8Ctx, c8Rules]
    rwa [h2] at hstep
  · intro nd hnd
    fin_cases hnd <;> simp
  · norm_num [make_pv_tree, pv_loop, push_children, pushMoves, popBest, qBetter,
      SearchCtx.most_common, List.insertionSort, List.orderedInsert, List.filterMap_cons,
      c8dCtx, c8dRules, c8dDb, c8dT, cycEngine, eget, GameDatabase.get_move_count, stepPos,
      List.erase, List.foldl]

/-! ## Claim C2 (amended): cycle resolution -/

/-- C2 amended: when a position is re-encountered while marked OPEN, the
search immediately overwrites the marker with the oracle's direct evaluation
and returns that value (first conjunct, the general cycle step); the search
terminates on the concrete repetition cycle `0 → 1 → 0`, but the value
finally stored for the repeated position is the outer expansion's best value
(which overwrites the oracle entry), not the oracle evaluation itself
(second and third conjuncts). -/
theorem c2_amended_cycle_resolution :
    (∀ (ctx : SearchCtx) (fuel : Nat) (etree : EMap) (pos : Nat),
        eget etree pos = some EEntry.opn →
        search_aux ctx (fuel + 1) etree pos
          = some (eset etree pos (EEntry.resolved (some (ctx.engine.bestMove pos))
                (ctx.engine.score pos)),
              ctx.engine.score pos, true))
      ∧ search_aux cycCtx 10 [] 0 = some (cycT, 3/8, true)
      ∧ eget cycT 0 = some (EEntry.resolved (some 10) (3/8)) := by
  refine ⟨?_, ?_, ?_⟩
  · intro ctx fuel etree pos h
    simp [search_aux, h]
  · norm_num [search_aux, moveLoop, replyLoop, cycCtx, cycRules, cycEngine, cycDb,
      cycT, eget, eset, GameDatabase.get_board_count, GameDatabase.get_move_count]
  · norm_num [cycT, eget]

/-- Witness for C2 (amended) at a concrete table in which position `4` is
marked OPEN. -/
theorem c2_witness :
    search_aux wCtx 3 [(4, EEntry.opn)] 4
      = some (eset [(4, EEntry.opn)] 4
            (EEntry.resolved (some (wCtx.engine.bestMove 4)) (wCtx.engine.score 4)),
          wCtx.engine.score 4, true) :=
  c2_amended_cycle_resolution.1 wCtx 2 [(4, EEntry.opn)] 4 (by norm_num [eget])

/-! ## Claim C7 (amended): tie-breaking keeps the last-seen maximal move -/

/-- The move loop over moves whose resulting positions are all below the
visit threshold neither touches the memo table nor recurses: it is the pure
selection fold `bestFoldP` over the negated engine scores. -/
theorem moveLoop_leaf (ctx : SearchCtx) (srch : EMap → Nat → Option (EMap × ℚ × Bool))
    (pos : Nat) :
    ∀ (ms : List Nat) (T : EMap) (bm : Option Nat) (bs : ℚ) (cyc : Bool),
      (∀ m ∈ ms, ctx.database.get_board_count (ctx.rules.after pos m) < ctx.treshold) →
      moveLoop ctx srch pos ms T bm bs cyc
        = some (T,
            (bestFoldP (ms.map (fun m => (m, -(ctx.engine.score (ctx.rules.after pos m)))))
              (bm, bs)).1,
            (bestFoldP (ms.map (fun m => (m, -(ctx.engine.score (ctx.rules.after pos m)))))
              (bm, bs)).2,
            cyc) := by
  intro ms
  induction ms with
  | nil =>
    intro T bm bs cyc _
    simp [moveLoop, bestFoldP]
  | cons m ms ih =>
    intro T bm bs cyc h
    have hm := h m (by simp)
    have hrest : ∀ x ∈ ms, ctx.database.get_board_count (ctx.rules.after pos x)
        < ctx.treshold := fun x hx => h x (by simp [hx])
    simp only [moveLoop, List.map_cons, bestFoldP, if_pos hm]
    by_cases hcmp : bs ≤ -(ctx.engine.score (ctx.rules.after pos m))
    · rw [if_pos hcmp, if_pos hcmp, ih T _ _ _ hrest]
      simp
    · rw [if_neg hcmp, if_neg hcmp, ih T _ _ _ hrest]
      simp

/-- `bestFoldP` either leaves the running best untouched (when every
candidate is strictly smaller) or returns the last-seen maximal candidate. -/
theorem bestFoldP_spec (f : Nat → ℚ) :
    ∀ (ms : List Nat) (b : Option Nat × ℚ),
      (bestFoldP (ms.map (fun m => (m, f m))) b = b ∧ ∀ x ∈ ms, f x < b.2)
      ∨ ∃ m l₁ l₂, ms = l₁ ++ m :: l₂
          ∧ bestFoldP (ms.map (fun m => (m, f m))) b = (some m, f m)
          ∧ b.2 ≤ f m ∧ (∀ x ∈ ms, f x ≤ f m) ∧ (∀ x ∈ l₂, f x < f m) := by
  intro ms
  induction ms with
  | nil =>
    intro b
    left
    exact ⟨rfl, by simp⟩
  | cons m ms ih =>
    intro b
    by_cases hc : b.2 ≤ f m
    · rcases ih (some m, f m) with ⟨heq, hlt⟩ | ⟨m', l₁, l₂, hsplit, heq, hle, hub, hlt⟩
      · right
        refine ⟨m, [], ms, by simp, ?_, hc, ?_, hlt⟩
        · simp only [List.map_cons, bestFoldP, if_pos hc]
          exact heq
        · intro x hx
          rcases List.mem_cons.mp hx with h | h
          · subst h; exact le_refl _
          · exact le_of_lt (hlt x h)
      · right
        refine ⟨m', m :: l₁, l₂, by simp [hsplit], ?_, le_trans hc hle, ?_, hlt⟩
        · simp only [List.map_cons, bestFoldP, if_pos hc]
          exact heq
        · intro x hx
          rcases List.mem_cons.mp hx with h | h
          · subst h; exact hle
          · exact hub x h
    · rcases ih b with ⟨heq, hlt⟩ | ⟨m', l₁, l₂, hsplit, heq, hle, hub, hlt⟩
      · left
        refine ⟨?_, ?_⟩
        · simp only [List.map_cons, bestFoldP, if_neg hc]
          exact heq
        · intro x hx
          rcases List.mem_cons.mp hx with h | h
          · subst h; exact lt_of_not_le hc
          · exact hlt x h
      · right
        refine ⟨m', m :: l₁, l₂, by simp [hsplit], ?_, hle, ?_, hlt⟩
        · simp only [List.map_cons, bestFoldP, if_neg hc]
          exact heq
        · intro x hx
          rcases List.mem_cons.mp hx with h | h
          · subst h; exact le_trans (le_of_lt (lt_of_not_le hc)) hle
          · exact hub x h

/-- C7 amended: under the non-strict `>=` comparison, when several legal
moves tie for the maximal value the memoization table stores the *last*-seen
maximal move (later equally-good candidates replace earlier ones), stated
for a position whose continuations are all leaf-evaluated. -/
theorem c7_amended_last_max (ctx : SearchCtx) (fuel : Nat) (etree : EMap) (pos : Nat)
    (hnew : eget etree pos = none)
    (hbc : ¬(ctx.database.get_board_count pos < ctx.treshold))
    (hleaf : ∀ m ∈ ctx.rules.legalMoves pos,
      ctx.database.get_board_count (ctx.rules.after pos m) < ctx.treshold)
    (hr : ∀ p : Nat, ctx.engine.score p ≤ 1)
    (hne : ctx.rules.legalMoves pos ≠ []) :
    ∃ m l₁ l₂,
      ctx.rules.legalMoves pos = l₁ ++ m :: l₂
      ∧ search_aux ctx (fuel + 1) etree pos
          = some (eset (eset etree pos EEntry.opn) pos
                (EEntry.resolved (some m) (-(ctx.engine.score (ctx.rules.after pos m)))),
              -(ctx.engine.score (ctx.rules.after pos m)), false)
      ∧ (∀ x ∈ ctx.rules.legalMoves pos,
          -(ctx.engine.score (ctx.rules.after pos x))
            ≤ -(ctx.engine.score (ctx.rules.after pos m)))
      ∧ (∀ x ∈ l₂,
          -(ctx.engine.score (ctx.rules.after pos x))
            < -(ctx.engine.score (ctx.rules.after pos m))) := by
  rcases bestFoldP_spec (fun m => -(ctx.engine.score (ctx.rules.after pos m)))
      (ctx.rules.legalMoves pos) (none, -1) with ⟨_, hlt⟩ | ⟨m, l₁, l₂, hsplit, heq, _, hub, hlt⟩
  · rcases List.exists_mem_of_ne_nil _ hne with ⟨x, hx⟩
    have h1 := hlt x hx
    have h2 := hr (ctx.rules.after pos x)
    simp only at h1
    linarith
  · refine ⟨m, l₁, l₂, hsplit, ?_, hub, hlt⟩
    simp only [search_aux, hnew, if_neg hbc]
    rw [moveLoop_leaf ctx (search_aux ctx fuel) pos (ctx.rules.legalMoves pos)
      (eset etree pos EEntry.opn) none (-1) false hleaf]
    rw [heq]

/-- Witness for C7 (amended) at the concrete tie `c7Ctx`: the last-seen
maximal move is stored. -/
theorem c7_witness :
    ∃ m l₁ l₂,
      c7Ctx.rules.legalMoves 0 = l₁ ++ m :: l₂
      ∧ search_aux c7Ctx 5 [] 0
          = some (eset (eset [] 0 EEntry.opn) 0
                (EEntry.resolved (some m) (-(c7Ctx.engine.score (c7Ctx.rules.after 0 m)))),
              -(c7Ctx.engine.score (c7Ctx.rules.after 0 m)), false)
      ∧ (∀ x ∈ c7Ctx.rules.legalMoves 0,
          -(c7Ctx.engine.score (c7Ctx.rules.after 0 x))
            ≤ -(c7Ctx.engine.score (c7Ctx.rules.after 0 m)))
      ∧ (∀ x ∈ l₂,
          -(c7Ctx.engine.score (c7Ctx.rules.after 0 x))
            < -(c7Ctx.engine.score (c7Ctx.rules.after 0 m))) :=
  c7_amended_last_max c7Ctx 4 [] 0 (by norm_num [eget])
    (by norm_num [c7Ctx, GameDatabase.get_board_count])
    (by
      intro m hm
      have h0 : c7Ctx.rules.legalMoves 0 = [10, 11] := by norm_num [c7Ctx]
      rw [h0] at hm
      rcases List.mem_cons.mp hm with h | h
      · subst h; norm_num [c7Ctx, GameDatabase.get_board_count]
      · simp at h; subst h; norm_num [c7Ctx, GameDatabase.get_board_count])
    (by
      intro p
      norm_num [c7Ctx]
      split <;> norm_num <;> split <;> norm_num)
    (by simp [c7Ctx])

/-! ## Score bounds of the search (machinery for C6 amended) -/

/-- Case analysis for a lookup in an updated table. -/
theorem eget_eset_cases {t : EMap} {k k' : Nat} {v : EEntry} {e : EEntry}
    (h : eget (eset t k v) k' = some e) :
    (k' = k ∧ e = v) ∨ (k' ≠ k ∧ eget t k' = some e) := by
  by_cases hk : k' = k
  · subst hk
    rw [eget_eset_self] at h
    exact Or.inl ⟨rfl, (Option.some_injective _ h).symm⟩
  · rw [eget_eset_ne t k k' v (fun hh => hk hh.symm)] at h
    exact Or.inr ⟨hk, h⟩

theorem scoreBounded_eset_opn {t : EMap} (k : Nat) (h : scoreBounded t) :
    scoreBounded (eset t k EEntry.opn) := by
  intro k' mv s hk
  rcases eget_eset_cases hk with ⟨_, he⟩ | ⟨_, he⟩
  · cases he
  · exact h k' mv s he

theorem scoreBounded_eset_resolved {t : EMap} (k : Nat) (mv : Option Nat) {s : ℚ}
    (h : scoreBounded t) (h1 : -1 ≤ s) (h2 : s ≤ 1) :
    scoreBounded (eset t k (EEntry.resolved mv s)) := by
  intro k' mv' s' hk
  rcases eget_eset_cases hk with ⟨_, he⟩ | ⟨_, he⟩
  · cases he
    exact ⟨h1, h2⟩
  · exact h k' mv' s' he

/-- Bounds invariant of the opponent-reply loop: if every recursive value is
in `[-1, 1]` then the weighted sum stays within the accumulated weight. -/
theorem replyLoop_bounds (ctx : SearchCtx) (srch : EMap → Nat → Option (EMap × ℚ × Bool))
    (hs : ∀ T p T' v c, srch T p = some (T', v, c) → scoreBounded T →
      scoreBounded T' ∧ -1 ≤ v ∧ v ≤ 1) (pp : Nat) :
    ∀ (rs : List Nat) (T : EMap) (s d : ℚ) (cyc : Bool) (T' : EMap) (s' d' : ℚ) (c' : Bool),
      replyLoop ctx srch pp rs T s d cyc = some (T', s', d', c') →
      scoreBounded T → -d ≤ s → s ≤ d → 0 ≤ d →
      scoreBounded T' ∧ -d' ≤ s' ∧ s' ≤ d' ∧ d ≤ d' := by
  intro rs
  induction rs with
  | nil =>
    intro T s d cyc T' s' d' c' h hT h1 h2 h3
    simp only [replyLoop] at h
    cases h
    exact ⟨hT, h1, h2, le_refl _⟩
  | cons r rs ih =>
    intro T s d cyc T' s' d' c' h hT h1 h2 h3
    simp only [replyLoop] at h
    cases hsr : srch T (ctx.rules.after pp r) with
    | none => rw [hsr] at h; cases h
    | some res =>
      obtain ⟨T1, val, c⟩ := res
      rw [hsr] at h
      obtain ⟨hT1, hv1, hv2⟩ := hs T _ T1 val c hsr hT
      have hw0 : (0 : ℚ) ≤ (ctx.database.get_move_count pp r : ℚ) := by positivity
      have hw : (1 : ℚ) ≤ (ctx.database.get_move_count pp r : ℚ) + 1 := by linarith
      refine ?_
      have hnext := ih T1 (s + val * ((ctx.database.get_move_count pp r : ℚ) + 1))
        (d + ((ctx.database.get_move_count pp r : ℚ) + 1)) (cyc || c) T' s' d' c' h hT1
        (by nlinarith) (by nlinarith) (by linarith)
      exact ⟨hnext.1, hnext.2.1, hnext.2.2.1, by linarith [hnext.2.2.2]⟩

/-- Bounds invariant of the own-move loop. -/
theorem moveLoop_bounds (ctx : SearchCtx) (srch : EMap → Nat → Option (EMap × ℚ × Bool))
    (hs : ∀ T p T' v c, srch T p = some (T', v, c) → scoreBounded T →
      scoreBounded T' ∧ -1 ≤ v ∧ v ≤ 1)
    (hr : ∀ p : Nat, 0 ≤ ctx.engine.score p ∧ ctx.engine.score p ≤ 1) (pos : Nat) :
    ∀ (ms : List Nat) (T : EMap) (bm : Option Nat) (bs : ℚ) (cyc : Bool)
      (T' : EMap) (bm' : Option Nat) (bs' : ℚ) (c' : Bool),
      moveLoop ctx srch pos ms T bm bs cyc = some (T', bm', bs', c') →
      scoreBounded T → -1 ≤ bs → bs ≤ 1 →
      scoreBounded T' ∧ -1 ≤ bs' ∧ bs' ≤ 1 := by
  intro ms
  induction ms with
  | nil =>
    intro T bm bs cyc T' bm' bs' c' h hT h1 h2
    simp only [moveLoop] at h
    cases h
    exact ⟨hT, h1, h2⟩
  | cons m ms ih =>
    intro T bm bs cyc T' bm' bs' c' h hT h1 h2
    simp only [moveLoop] at h
    by_cases hbc : ctx.database.get_board_count (ctx.rules.after pos m) < ctx.treshold
    · rw [if_pos hbc] at h
      dsimp only at h
      have hsc1 : -1 ≤ -(ctx.engine.score (ctx.rules.after pos m)) := by
        have := (hr (ctx.rules.after pos m)).2
        linarith
      have hsc2 : -(ctx.engine.score (ctx.rules.after pos m)) ≤ 1 := by
        have := (hr (ctx.rules.after pos m)).1
        linarith
      by_cases hcmp : bs ≤ -(ctx.engine.score (ctx.rules.after pos m))
      · rw [if_pos hcmp] at h
        exact ih _ _ _ _ _ _ _ _ h hT hsc1 hsc2
      · rw [if_neg hcmp] at h
        exact ih _ _ _ _ _ _ _ _ h hT h1 h2
    · rw [if_neg hbc] at h
      cases hrl : replyLoop ctx srch (ctx.rules.after pos m)
          (ctx.rules.legalMoves (ctx.rules.after pos m)) T 0 0 false with
      | none => rw [hrl] at h; cases h
      | some res =>
        obtain ⟨T1, sc, dn, c⟩ := res
        rw [hrl] at h
        dsimp only at h
        by_cases hdn : dn = 0
        · rw [if_pos hdn] at h; cases h
        · rw [if_neg hdn] at h
          dsimp only at h
          obtain ⟨hT1, hs1, hs2, hd⟩ := replyLoop_bounds ctx srch hs _ _ T 0 0 false T1 sc dn c
            hrl hT (by norm_num) (by norm_num) (by norm_num)
          have hdpos : 0 < dn := lt_of_le_of_ne hd (Ne.symm hdn)
          have hq1 : -1 ≤ sc / dn := by
            rw [neg_le, ← neg_div]
            exact (div_le_one hdpos).mpr (by linarith)
          have hq2 : sc / dn ≤ 1 := (div_le_one hdpos).mpr hs2
          by_cases hcmp : bs ≤ sc / dn
          · rw [if_pos hcmp] at h
            exact ih _ _ _ _ _ _ _ _ h hT1 hq1 hq2
          · rw [if_neg hcmp] at h
            exact ih _ _ _ _ _ _ _ _ h hT1 h1 h2

/-- Bounds invariant of `__search`: starting from a table whose scores are
all in `[-1, 1]`, every run keeps that invariant and returns a value in
`[-1, 1]`. -/
theorem search_aux_bounds (ctx : SearchCtx)
    (hr : ∀ p : Nat, 0 ≤ ctx.engine.score p ∧ ctx.engine.score p ≤ 1) :
    ∀ (fuel : Nat) (T : EMap) (p : Nat) (T' : EMap) (v : ℚ) (c : Bool),
      search_aux ctx fuel T p = some (T', v, c) → scoreBounded T →
      scoreBounded T' ∧ -1 ≤ v ∧ v ≤ 1 := by
  intro fuel
  induction fuel with
  | zero =>
    intro T p T' v c h
    simp [search_aux] at h
  | succ fuel ih =>
    intro T p T' v c h hT
    simp only [search_aux] at h
    cases he : eget T p with
    | some e =>
      rw [he] at h
      cases e with
      | opn =>
        simp only at h
        cases h
        refine ⟨scoreBounded_eset_resolved p (some (ctx.engine.bestMove p)) hT ?_ ?_, ?_, ?_⟩
        · have := (hr p).1; linarith
        · exact (hr p).2
        · have := (hr p).1; linarith
        · exact (hr p).2
      | resolved mv s =>
        simp only at h
        cases h
        exact ⟨hT, (hT p mv v he).1, (hT p mv v he).2⟩
    | none =>
      rw [he] at h
      simp only at h
      by_cases hbc : ctx.database.get_board_count p < ctx.treshold
      · rw [if_pos hbc] at h
        cases h
        refine ⟨scoreBounded_eset_resolved p (some (ctx.engine.bestMove p))
          (scoreBounded_eset_opn p hT) ?_ ?_, ?_, ?_⟩
        · have := (hr p).1; linarith
        · exact (hr p).2
        · have := (hr p).1; linarith
        · exact (hr p).2
      · rw [if_neg hbc] at h
        cases hml : moveLoop ctx (search_aux ctx fuel) p (ctx.rules.legalMoves p)
            (eset T p EEntry.opn) none (-1) false with
        | none => rw [hml] at h; cases h
        | some res =>
          obtain ⟨T1, bm1, bs1, c1⟩ := res
          rw [hml] at h
          cases h
          obtain ⟨hT1, hb1, hb2⟩ := moveLoop_bounds ctx (search_aux ctx fuel)
            (fun T p T' v c hh hTT => ih T p T' v c hh hTT) hr p _ _ _ _ _ _ _ _ _ hml
            (scoreBounded_eset_opn p hT) (by norm_num) (by norm_num)
          exact ⟨scoreBounded_eset_resolved p bm1 hT1 hb1 hb2, hb1, hb2⟩

/-! ## Claim C6 (amended): values lie in `[-1, 1]` -/

/-- C6 amended: provided the oracle's scores lie in `[0, 1]` (as its
documentation states), every score the search stores in the memoization
table and every value it returns lies in `[-1, 1]` — not `[0, 1]`: the
negation applied to leaf evaluations after the analyzed side's move makes
negative values both returnable and storable. -/
theorem c6_amended_bounds (ctx : SearchCtx)
    (hr : ∀ p : Nat, 0 ≤ ctx.engine.score p ∧ ctx.engine.score p ≤ 1)
    (fuel : Nat) (etree : EMap) (pos : Nat) (T : EMap) (v : ℚ) (c : Bool)
    (hT : scoreBounded etree)
    (h : search_aux ctx fuel etree pos = some (T, v, c)) :
    (-1 ≤ v ∧ v ≤ 1) ∧ scoreBounded T := by
  obtain ⟨h1, h2, h3⟩ := search_aux_bounds ctx hr fuel etree pos T v c h hT
  exact ⟨⟨h2, h3⟩, h1⟩

/-- Witness for C6 (amended) on the run that stores `-(3/5)`. -/
theorem c6_witness :
    ((-1 : ℚ) ≤ -(3/5) ∧ (-(3/5) : ℚ) ≤ 1)
      ∧ scoreBounded [(0, EEntry.resolved (some 10) (-(3/5)))] :=
  c6_amended_bounds c6Ctx
    (by
      intro p
      by_cases hp : p = 1 <;> simp [c6Ctx, hp] <;> norm_num)
    5 [] 0 [(0, EEntry.resolved (some 10) (-(3/5)))] (-(3/5)) false
    (by intro k mv s hk; simp [eget] at hk)
    (by norm_num [search_aux, moveLoop, replyLoop, c6Ctx, eget, eset,
      GameDatabase.get_board_count, GameDatabase.get_move_count])

/-! ## Stability and coherence machinery for the search (C1, C4) -/

theorem dot_nil (l : List ℚ) : dot [] l = 0 := rfl

theorem dot_cons (a b : ℚ) (as bs : List ℚ) :
    dot (a :: as) (b :: bs) = a * b + dot as bs := by
  simp [dot]

theorem bestFoldP_snd : ∀ (l : List (Nat × ℚ)) (b : Option Nat × ℚ),
    (bestFoldP l b).2 = (l.map Prod.snd).foldl max b.2 := by
  intro l
  induction l with
  | nil => intro b; simp [bestFoldP]
  | cons mv rest ih =>
    intro b
    obtain ⟨m, v⟩ := mv
    by_cases hc : b.2 ≤ v
    · rw [show bestFoldP ((m, v) :: rest) b = bestFoldP rest (some m, v) from by
        simp [bestFoldP, hc]]
      rw [ih]
      simp [max_def, hc]
    · rw [show bestFoldP ((m, v) :: rest) b = bestFoldP rest b from by
        simp [bestFoldP, hc]]
      rw [ih]
      simp [max_def, hc]

theorem zip_map_snd : ∀ (l1 : List Nat) (l2 : List ℚ), l1.length = l2.length →
    (l1.zip l2).map Prod.snd = l2 := by
  intro l1
  induction l1 with
  | nil =>
    intro l2 h
    cases l2
    · rfl
    · cases h
  | cons a l1 ih =>
    intro l2 h
    cases l2 with
    | nil => cases h
    | cons b l2 =>
      simp only [List.zip_cons_cons, List.map_cons]
      rw [ih l2 (by simpa using h)]

theorem omap_mono_mem {α β : Type} {f g : α → Option β} :
    ∀ {l : List α} {bs : List β}, (∀ a ∈ l, ∀ b, f a = some b → g a = some b) →
      omap f l = some bs → omap g l = some bs := by
  intro l
  induction l with
  | nil =>
    intro bs _ hb
    simpa [omap] using hb
  | cons a l ih =>
    intro bs hmem hb
    simp only [omap] at hb ⊢
    cases hfa : f a with
    | none => rw [hfa] at hb; cases hb
    | some b =>
      rw [hfa] at hb
      cases hol : omap f l with
      | none => rw [hol] at hb; cases hb
      | some bs' =>
        rw [hol] at hb
        cases hb
        rw [hmem a (by simp) b hfa, ih (fun x hx => hmem x (by simp [hx])) hol]

theorem valueKept_of_keeps {t t' : EMap} (h : keeps t t') : valueKept t t' := by
  intro k v hv
  unfold escore at hv ⊢
  cases he : eget t k with
  | none => rw [he] at hv; cases hv
  | some e =>
    rw [he] at hv
    cases e with
    | opn => cases hv
    | resolved mv s =>
      cases hv
      rw [h k mv v he]

theorem valueKept_eset_of_none {t : EMap} {p : Nat} (hp : escore t p = none) (e : EEntry) :
    valueKept t (eset t p e) := by
  intro k v hv
  by_cases hk : k = p
  · subst hk
    rw [hp] at hv
    cases hv
  · unfold escore at hv ⊢
    rw [eget_eset_ne t p k e (fun h => hk h.symm)]
    exact hv

theorem value_m_kept (ctx : SearchCtx) {t t' : EMap} (hv : valueKept t t')
    (pos m : Nat) {x : ℚ} (h : value_m ctx t pos m = some x) :
    value_m ctx t' pos m = some x := by
  unfold value_m at h ⊢
  by_cases hbc : ctx.database.get_board_count (ctx.rules.after pos m) < ctx.treshold
  · rw [if_pos hbc] at h ⊢
    exact h
  · rw [if_neg hbc] at h ⊢
    cases ho : omap (fun r => escore t (ctx.rules.after pos m |> fun pp =>
        ctx.rules.after pp r)) (ctx.rules.legalMoves (ctx.rules.after pos m)) with
    | none =>
      rw [show omap (fun r => escore t (ctx.rules.after (ctx.rules.after pos m) r))
          (ctx.rules.legalMoves (ctx.rules.after pos m)) = none from ho] at h
      cases h
    | some vals =>
      rw [show omap (fun r => escore t (ctx.rules.after (ctx.rules.after pos m) r))
          (ctx.rules.legalMoves (ctx.rules.after pos m)) = some vals from ho] at h
      rw [omap_mono (fun a b hab => hv _ b hab) _ vals
        (show omap (fun r => escore t (ctx.rules.after (ctx.rules.after pos m) r))
          (ctx.rules.legalMoves (ctx.rules.after pos m)) = some vals from ho)]
      exact h

theorem goodEntry_lift (ctx : SearchCtx) {t t' : EMap} (hv : valueKept t t') {k : Nat} {s : ℚ}
    (h : ∃ vals, omap (value_m ctx t k) (ctx.rules.legalMoves k) = some vals
      ∧ s = vals.foldl max (-1)) :
    ∃ vals, omap (value_m ctx t' k) (ctx.rules.legalMoves k) = some vals
      ∧ s = vals.foldl max (-1) := by
  obtain ⟨vals, hov, hfold⟩ := h
  exact ⟨vals, omap_mono (fun a b hab => value_m_kept ctx hv k a hab) _ vals hov, hfold⟩

theorem escore_none_of_eget_none {t : EMap} {p : Nat} (h : eget t p = none) :
    escore t p = none := by
  unfold escore
  rw [h]

theorem escore_none_of_opn {t : EMap} {p : Nat} (h : eget t p = some EEntry.opn) :
    escore t p = none := by
  unfold escore
  rw [h]

theorem goodTable_eset_opn (ctx : SearchCtx) {t : EMap} {p : Nat}
    (hp : eget t p = none) (hg : goodTable ctx t) :
    goodTable ctx (eset t p EEntry.opn) := by
  intro k mv s hk hb
  rcases eget_eset_cases hk with ⟨_, he⟩ | ⟨hne, he⟩
  · cases he
  · exact goodEntry_lift ctx (valueKept_eset_of_none (escore_none_of_eget_none hp) _)
      (hg k mv s he hb)

/-- The ghost cycle flag never resets: a reply loop started with the flag on
ends with it on. -/
theorem replyLoop_true (ctx : SearchCtx) (srch : EMap → Nat → Option (EMap × ℚ × Bool))
    (pp : Nat) :
    ∀ (rs : List Nat) (T : EMap) (s d : ℚ) (T' : EMap) (s' d' : ℚ) (c' : Bool),
      replyLoop ctx srch pp rs T s d true = some (T', s', d', c') → c' = true := by
  intro rs
  induction rs with
  | nil =>
    intro T s d T' s' d' c' h
    simp only [replyLoop] at h
    cases h
    rfl
  | cons r rs ih =>
    intro T s d T' s' d' c' h
    simp only [replyLoop] at h
    cases hsr : srch T (ctx.rules.after pp r) with
    | none => rw [hsr] at h; cases h
    | some res =>
      obtain ⟨T1, val, c⟩ := res
      rw [hsr] at h
      dsimp only at h
      rw [Bool.true_or] at h
      exact ih T1 _ _ T' s' d' c' h

/-- The ghost cycle flag never resets across the move loop either. -/
theorem moveLoop_true (ctx : SearchCtx) (srch : EMap → Nat → Option (EMap × ℚ × Bool))
    (pos : Nat) :
    ∀ (ms : List Nat) (T : EMap) (bm : Option Nat) (bs : ℚ) (T' : EMap)
      (bm' : Option Nat) (bs' : ℚ) (c' : Bool),
      moveLoop ctx srch pos ms T bm bs true = some (T', bm', bs', c') → c' = true := by
  intro ms
  induction ms with
  | nil =>
    intro T bm bs T' bm' bs' c' h
    simp only [moveLoop] at h
    cases h
    rfl
  | cons m ms ih =>
    intro T bm bs T' bm' bs' c' h
    simp only [moveLoop] at h
    by_cases hbc : ctx.database.get_board_count (ctx.rules.after pos m) < ctx.treshold
    · rw [if_pos hbc] at h
      dsimp only at h
      rw [Bool.true_or] at h
      by_cases hcmp : bs ≤ -(ctx.engine.score (ctx.rules.after pos m))
      · rw [if_pos hcmp] at h
        exact ih _ _ _ _ _ _ _ h
      · rw [if_neg hcmp] at h
        exact ih _ _ _ _ _ _ _ h
    · rw [if_neg hbc] at h
      cases hrl : replyLoop ctx srch (ctx.rules.after pos m)
          (ctx.rules.legalMoves (ctx.rules.after pos m)) T 0 0 false with
      | none => rw [hrl] at h; cases h
      | some res =>
        obtain ⟨T1, sc, dn, c⟩ := res
        rw [hrl] at h
        dsimp only at h
        by_cases hdn : dn = 0
        · rw [if_pos hdn] at h; cases h
        · rw [if_neg hdn] at h
          dsimp only at h
          rw [Bool.true_or] at h
          by_cases hcmp : bs ≤ sc / dn
          · rw [if_pos hcmp] at h
            exact ih _ _ _ _ _ _ _ h
          · rw [if_neg hcmp] at h
            exact ih _ _ _ _ _ _ _ h

/-- Resolved entries survive a reply loop, whatever the flags, provided the
callback preserves them. -/
theorem replyLoop_keeps (ctx : SearchCtx) (srch : EMap → Nat → Option (EMap × ℚ × Bool))
    (hk : ∀ T p T' v c, srch T p = some (T', v, c) → keeps T T') (pp : Nat) :
    ∀ (rs : List Nat) (T : EMap) (s d : ℚ) (cyc : Bool) (T' : EMap) (s' d' : ℚ) (c' : Bool),
      replyLoop ctx srch pp rs T s d cyc = some (T', s', d', c') → keeps T T' := by
  intro rs
  induction rs with
  | nil =>
    intro T s d cyc T' s' d' c' h
    simp only [replyLoop] at h
    cases h
    exact fun k mv s h => h
  | cons r rs ih =>
    intro T s d cyc T' s' d' c' h
    simp only [replyLoop] at h
    cases hsr : srch T (ctx.rules.after pp r) with
    | none => rw [hsr] at h; cases h
    | some res =>
      obtain ⟨T1, val, c⟩ := res
      rw [hsr] at h
      dsimp only at h
      exact fun k mv s hh => ih T1 _ _ _ T' s' d' c' h k mv s (hk T _ T1 val c hsr k mv s hh)

/-- Resolved entries survive the move loop, whatever the flags. -/
theorem moveLoop_keeps (ctx : SearchCtx) (srch : EMap → Nat → Option (EMap × ℚ × Bool))
    (hk : ∀ T p T' v c, srch T p = some (T', v, c) → keeps T T') (pos : Nat) :
    ∀ (ms : List Nat) (T : EMap) (bm : Option Nat) (bs : ℚ) (cyc : Bool) (T' : EMap)
      (bm' : Option Nat) (bs' : ℚ) (c' : Bool),
      moveLoop ctx srch pos ms T bm bs cyc = some (T', bm', bs', c') → keeps T T' := by
  intro ms
  induction ms with
  | nil =>
    intro T bm bs cyc T' bm' bs' c' h
    simp only [moveLoop] at h
    cases h
    exact fun k mv s h => h
  | cons m ms ih =>
    intro T bm bs cyc T' bm' bs' c' h
    simp only [moveLoop] at h
    by_cases hbc : ctx.database.get_board_count (ctx.rules.after pos m) < ctx.treshold
    · rw [if_pos hbc] at h
      dsimp only at h
      by_cases hcmp : bs ≤ -(ctx.engine.score (ctx.rules.after pos m))
      · rw [if_pos hcmp] at h
        exact ih _ _ _ _ _ _ _ _ h
      · rw [if_neg hcmp] at h
        exact ih _ _ _ _ _ _ _ _ h
    · rw [if_neg hbc] at h
      cases hrl : replyLoop ctx srch (ctx.rules.after pos m)
          (ctx.rules.legalMoves (ctx.rules.after pos m)) T 0 0 false with
      | none => rw [hrl] at h; cases h
      | some res =>
        obtain ⟨T1, sc, dn, c⟩ := res
        rw [hrl] at h
        dsimp only at h
        by_cases hdn : dn = 0
        · rw [if_pos hdn] at h; cases h
        · rw [if_neg hdn] at h
          dsimp only at h
          have hk1 := replyLoop_keeps ctx srch hk _ _ T 0 0 false T1 sc dn c hrl
          by_cases hcmp : bs ≤ sc / dn
          · rw [if_pos hcmp] at h
            exact fun k mv s hh => ih _ _ _ _ _ _ _ _ h k mv s (hk1 k mv s hh)
          · rw [if_neg hcmp] at h
            exact fun k mv s hh => ih _ _ _ _ _ _ _ _ h k mv s (hk1 k mv s hh)

/-- Full characterization of a cycle-free reply loop under a well-behaved
callback: tables evolve conservatively, and the accumulated numerator and
denominator are exactly the Laplace-weighted dot product of the values now
stored for the reply positions. -/
theorem replyLoop_main (ctx : SearchCtx) (srch : EMap → Nat → Option (EMap × ℚ × Bool))
    (hs : SAP ctx srch) (pp : Nat) :
    ∀ (rs : List Nat) (T : EMap) (s d : ℚ) (T' : EMap) (s' d' : ℚ),
      replyLoop ctx srch pp rs T s d false = some (T', s', d', false) →
      keeps T T' ∧ opensKept T T' ∧ (goodTable ctx T → goodTable ctx T')
      ∧ ∃ vals, omap (fun r => escore T' (ctx.rules.after pp r)) rs = some vals
          ∧ s' = s + dot vals (rs.map (fun r => (ctx.database.get_move_count pp r : ℚ) + 1))
          ∧ d' = d + (rs.map (fun r => (ctx.database.get_move_count pp r : ℚ) + 1)).sum := by
  intro rs
  induction rs with
  | nil =>
    intro T s d T' s' d' h
    simp only [replyLoop] at h
    cases h
    exact ⟨fun k mv s h => h, fun k h => h, fun hg => hg,
      [], rfl, by simp [dot_nil], by simp⟩
  | cons r rs ih =>
    intro T s d T' s' d' h
    simp only [replyLoop] at h
    cases hsr : srch T (ctx.rules.after pp r) with
    | none => rw [hsr] at h; cases h
    | some res =>
      obtain ⟨T1, val, c⟩ := res
      rw [hsr] at h
      dsimp only at h
      rw [Bool.false_or] at h
      cases c with
      | true => exact absurd (replyLoop_true ctx srch pp rs T1 _ _ T' s' d' false h) (by simp)
      | false =>
        obtain ⟨hk1, hpost, hcf⟩ := hs T _ T1 val false hsr
        obtain ⟨ho1, hg1⟩ := hcf rfl
        obtain ⟨hk2, ho2, hg2, vals, hov, hs', hd'⟩ := ih T1 _ _ T' s' d' h
        obtain ⟨mv, hmv⟩ := hpost
        refine ⟨fun k mv' s'' hh => hk2 _ _ _ (hk1 _ _ _ hh),
          fun k hh => ho2 _ (ho1 _ hh), fun hg => hg2 (hg1 hg),
          val :: vals, ?_, ?_, ?_⟩
        · have hesc : escore T' (ctx.rules.after pp r) = some val := by
            unfold escore
            rw [hk2 _ _ _ hmv]
          simp only [omap, hesc, hov]
        · rw [hs', List.map_cons, dot_cons]
          ring
        · rw [hd', List.map_cons, List.sum_cons]
          ring

/-- Full characterization of a cycle-free move loop: the per-move values are
exactly what `value_m` recomputes from the final table of the loop, and the
best pair is their `bestFoldP` selection. -/
theorem moveLoop_main (ctx : SearchCtx) (srch : EMap → Nat → Option (EMap × ℚ × Bool))
    (hs : SAP ctx srch) (pos : Nat) :
    ∀ (ms : List Nat) (T : EMap) (bm : Option Nat) (bs : ℚ) (T' : EMap)
      (bm' : Option Nat) (bs' : ℚ),
      moveLoop ctx srch pos ms T bm bs false = some (T', bm', bs', false) →
      keeps T T' ∧ opensKept T T' ∧ (goodTable ctx T → goodTable ctx T')
      ∧ ∃ vals, omap (value_m ctx T' pos) ms = some vals
          ∧ (bm', bs') = bestFoldP (ms.zip vals) (bm, bs) := by
  intro ms
  induction ms with
  | nil =>
    intro T bm bs T' bm' bs' h
    simp only [moveLoop] at h
    cases h
    exact ⟨fun k mv s h => h, fun k h => h, fun hg => hg, [], rfl, by simp [bestFoldP]⟩
  | cons m ms ih =>
    intro T bm bs T' bm' bs' h
    simp only [moveLoop] at h
    by_cases hbc : ctx.database.get_board_count (ctx.rules.after pos m) < ctx.treshold
    · rw [if_pos hbc] at h
      dsimp only at h
      rw [Bool.false_or] at h
      have hvm : ∀ t : EMap, value_m ctx t pos m
          = some (-(ctx.engine.score (ctx.rules.after pos m))) := by
        intro t
        unfold value_m
        rw [if_pos hbc]
      by_cases hcmp : bs ≤ -(ctx.engine.score (ctx.rules.after pos m))
      · rw [if_pos hcmp] at h
        obtain ⟨hk, ho, hg, vals, hov, hfold⟩ := ih _ _ _ _ _ _ h
        refine ⟨hk, ho, hg, -(ctx.engine.score (ctx.rules.after pos m)) :: vals, ?_, ?_⟩
        · simp only [omap, hvm T', hov]
        · simp only [List.zip_cons_cons, bestFoldP, if_pos hcmp]
          exact hfold
      · rw [if_neg hcmp] at h
        obtain ⟨hk, ho, hg, vals, hov, hfold⟩ := ih _ _ _ _ _ _ h
        refine ⟨hk, ho, hg, -(ctx.engine.score (ctx.rules.after pos m)) :: vals, ?_, ?_⟩
        · simp only [omap, hvm T', hov]
        · simp only [List.zip_cons_cons, bestFoldP, if_neg hcmp]
          exact hfold
    · rw [if_neg hbc] at h
      cases hrl : replyLoop ctx srch (ctx.rules.after pos m)
          (ctx.rules.legalMoves (ctx.rules.after pos m)) T 0 0 false with
      | none => rw [hrl] at h; cases h
      | some res =>
        obtain ⟨T1, sc, dn, c⟩ := res
        rw [hrl] at h
        dsimp only at h
        by_cases hdn : dn = 0
        · rw [if_pos hdn] at h; cases h
        · rw [if_neg hdn] at h
          dsimp only at h
          rw [Bool.false_or] at h
          cases c with
          | true =>
            by_cases hcmp : bs ≤ sc / dn
            · rw [if_pos hcmp] at h
              exact absurd (moveLoop_true ctx srch pos ms T1 _ _ T' bm' bs' false h)
                (by simp)
            · rw [if_neg hcmp] at h
              exact absurd (moveLoop_true ctx srch pos ms T1 _ _ T' bm' bs' false h)
                (by simp)
          | false =>
            obtain ⟨hk1, ho1, hg1, valsr, hovr, hsc, hdnr⟩ :=
              replyLoop_main ctx srch hs _ _ T 0 0 T1 sc dn hrl
            have hws : (weights ctx (ctx.rules.after pos m)).sum = dn := by
              rw [hdnr]
              simp [weights]
            have hdot : dot valsr (weights ctx (ctx.rules.after pos m)) = sc := by
              rw [hsc]
              simp [weights]
            have hvm : value_m ctx T1 pos m = some (sc / dn) := by
              unfold value_m
              rw [if_neg hbc]
              rw [show omap (fun r => escore T1 (ctx.rules.after (ctx.rules.after pos m) r))
                  (ctx.rules.legalMoves (ctx.rules.after pos m)) = some valsr from hovr]
              dsimp only
              rw [hws, hdot, if_neg hdn]
            by_cases hcmp : bs ≤ sc / dn
            · rw [if_pos hcmp] at h
              obtain ⟨hk2, ho2, hg2, vals, hov, hfold⟩ := ih _ _ _ _ _ _ h
              refine ⟨fun k mv' s'' hh => hk2 _ _ _ (hk1 _ _ _ hh),
                fun k hh => ho2 _ (ho1 _ hh), fun hg => hg2 (hg1 hg),
                (sc / dn) :: vals, ?_, ?_⟩
              · have := value_m_kept ctx (valueKept_of_keeps hk2) pos m hvm
                simp only [omap, this, hov]
              · simp only [List.zip_cons_cons, bestFoldP, if_pos hcmp]
                exact hfold
            · rw [if_neg hcmp] at h
              obtain ⟨hk2, ho2, hg2, vals, hov, hfold⟩ := ih _ _ _ _ _ _ h
              refine ⟨fun k mv' s'' hh => hk2 _ _ _ (hk1 _ _ _ hh),
                fun k hh => ho2 _ (ho1 _ hh), fun hg => hg2 (hg1 hg),
                (sc / dn) :: vals, ?_, ?_⟩
              · have := value_m_kept ctx (valueKept_of_keeps hk2) pos m hvm
                simp only [omap, this, hov]
              · simp only [List.zip_cons_cons, bestFoldP, if_neg hcmp]
                exact hfold

/-- The search satisfies the callback contract `SAP` at every fuel: resolved
entries are never modified, the searched position ends resolved at the
returned value, and cycle-free runs keep OPEN markers and preserve the
coherence of the memoization table with the documented expectimax rule. -/
theorem search_aux_main (ctx : SearchCtx) :
    ∀ fuel : Nat, SAP ctx (search_aux ctx fuel) := by
  intro fuel
  induction fuel with
  | zero =>
    intro T p T' v c h
    simp [search_aux] at h
  | succ fuel ih =>
    intro T p T' v c h
    simp only [search_aux] at h
    cases he : eget T p with
    | some e =>
      rw [he] at h
      cases e with
      | opn =>
        dsimp only at h
        cases h
        refine ⟨?_, ⟨some (ctx.engine.bestMove p), eget_eset_self T p _⟩, ?_⟩
        · intro k mv s hk
          have hne : k ≠ p := by
            intro hkp
            rw [hkp, he] at hk
            cases hk
          rw [eget_eset_ne T p k _ (fun hh => hne hh.symm)]
          exact hk
        · intro hcf
          exact absurd hcf (by decide)
      | resolved mv s =>
        dsimp only at h
        cases h
        exact ⟨fun k mv' s' hh => hh, ⟨mv, he⟩,
          fun _ => ⟨fun k hh => hh, fun hg => hg⟩⟩
    | none =>
      rw [he] at h
      dsimp only at h
      by_cases hbc : ctx.database.get_board_count p < ctx.treshold
      · rw [if_pos hbc] at h
        cases h
        have hkp : ∀ k, eget T k ≠ none → k ≠ p := by
          intro k hk hkp
          rw [hkp, he] at hk
          exact hk rfl
        refine ⟨?_, ⟨some (ctx.engine.bestMove p), eget_eset_self _ p _⟩, ?_⟩
        · intro k mv s hk
          have hne : k ≠ p := hkp k (by rw [hk]; exact fun hh => Option.noConfusion hh)
          rw [eget_eset_ne _ p k _ (fun hh => hne hh.symm),
            eget_eset_ne T p k _ (fun hh => hne hh.symm)]
          exact hk
        · intro _
          constructor
          · intro k hk
            have hne : k ≠ p := hkp k (by rw [hk]; exact fun hh => Option.noConfusion hh)
            rw [eget_eset_ne _ p k _ (fun hh => hne hh.symm),
              eget_eset_ne T p k _ (fun hh => hne hh.symm)]
            exact hk
          · intro hg k mv s hk hb
            rcases eget_eset_cases hk with ⟨hkp', hev⟩ | ⟨hne, hk2⟩
            · subst hkp'
              cases hev
              exact absurd hb (by omega)
            · rcases eget_eset_cases hk2 with ⟨_, hev⟩ | ⟨_, hk3⟩
              · cases hev
              · have hv1 : valueKept T (eset T p EEntry.opn) :=
                  valueKept_eset_of_none (escore_none_of_eget_none he) _
                have hv2 : valueKept (eset T p EEntry.opn)
                    (eset (eset T p EEntry.opn) p
                      (EEntry.resolved (some (ctx.engine.bestMove p)) (ctx.engine.score p))) :=
                  valueKept_eset_of_none (escore_none_of_opn (eget_eset_self T p _)) _
                exact goodEntry_lift ctx hv2 (goodEntry_lift ctx hv1 (hg k mv s hk3 hb))
      · rw [if_neg hbc] at h
        cases hml : moveLoop ctx (search_aux ctx fuel) p (ctx.rules.legalMoves p)
            (eset T p EEntry.opn) none (-1) false with
        | none => rw [hml] at h; cases h
        | some res =>
          obtain ⟨T1, bm1, bs1, c1⟩ := res
          rw [hml] at h
          dsimp only at h
          cases h
          have hkeep1 : keeps (eset T p EEntry.opn) T1 :=
            moveLoop_keeps ctx (search_aux ctx fuel)
              (fun Ta pa Ta' va ca hh => (ih Ta pa Ta' va ca hh).1) p _ _ _ _ _ _ _ _ _ hml
          have hkp : ∀ k, eget T k ≠ none → k ≠ p := by
            intro k hk hkp
            rw [hkp, he] at hk
            exact hk rfl
          refine ⟨?_, ⟨bm1, eget_eset_self T1 p _⟩, ?_⟩
          · intro k mv s hk
            have hne : k ≠ p := hkp k (by rw [hk]; exact fun hh => Option.noConfusion hh)
            rw [eget_eset_ne T1 p k _ (fun hh => hne hh.symm)]
            refine hkeep1 k mv s ?_
            rw [eget_eset_ne T p k _ (fun hh => hne hh.symm)]
            exact hk
          · intro hcf
            subst hcf
            obtain ⟨hk1, ho1, hg1, vals, hov, hfold⟩ :=
              moveLoop_main ctx (search_aux ctx fuel) (ih) p _ _ _ _ _ _ _ hml
            have hopnT1 : eget T1 p = some EEntry.opn := ho1 p (eget_eset_self T p _)
            have hvT1 : valueKept T1 (eset T1 p (EEntry.resolved bm1 v)) :=
              valueKept_eset_of_none (escore_none_of_opn hopnT1) _
            constructor
            · intro k hk
              have hne : k ≠ p := hkp k (by rw [hk]; exact fun hh => Option.noConfusion hh)
              rw [eget_eset_ne T1 p k _ (fun hh => hne hh.symm)]
              refine ho1 k ?_
              rw [eget_eset_ne T p k _ (fun hh => hne hh.symm)]
              exact hk
            · intro hg
              have hgood1 : goodTable ctx T1 := hg1 (goodTable_eset_opn ctx he hg)
              have hsndv : v = vals.foldl max (-1) := by
                have h2 := congrArg Prod.snd hfold
                dsimp only at h2
                rw [bestFoldP_snd, zip_map_snd _ _ (omap_length hov).symm] at h2
                exact h2
              intro k mv s hk hb
              rcases eget_eset_cases hk with ⟨hkp', hev⟩ | ⟨hne, hk2⟩
              · subst hkp'
                cases hev
                exact goodEntry_lift ctx hvT1 ⟨vals, hov, hsndv⟩
              · exact goodEntry_lift ctx hvT1 (hgood1 k mv s hk2 hb)

/-- Each member of a successful `omap` image comes from a member of the
source list. -/
theorem omap_mem {α β : Type} {f : α → Option β} :
    ∀ {l : List α} {bs : List β}, omap f l = some bs → ∀ b ∈ bs, ∃ a ∈ l, f a = some b := by
  intro l
  induction l with
  | nil =>
    intro bs h b hb
    simp [omap] at h
    subst h
    cases hb
  | cons a l ih =>
    intro bs h b hb
    simp only [omap] at h
    cases hfa : f a with
    | none => rw [hfa] at h; cases h
    | some b' =>
      rw [hfa] at h
      cases hol : omap f l with
      | none => rw [hol] at h; cases h
      | some bs' =>
        rw [hol] at h
        cases h
        rcases List.mem_cons.mp hb with hb' | hb'
        · subst hb'
          exact ⟨a, by simp, hfa⟩
        · obtain ⟨a', ha', hfa'⟩ := ih hol b hb'
          exact ⟨a', by simp [ha'], hfa'⟩

/-- A dot product of `[-1, 1]`-values against nonnegative weights is bounded
by the total weight. -/
theorem dot_bounds :
    ∀ (vs ws : List ℚ), vs.length = ws.length →
      (∀ v ∈ vs, -1 ≤ v ∧ v ≤ 1) → (∀ w ∈ ws, 0 ≤ w) →
      -(ws.sum) ≤ dot vs ws ∧ dot vs ws ≤ ws.sum := by
  intro vs
  induction vs with
  | nil =>
    intro ws h _ _
    cases ws
    · simp [dot_nil]
    · cases h
  | cons v vs ih =>
    intro ws h hv hw
    cases ws with
    | nil => cases h
    | cons w ws =>
      have hvb := hv v (by simp)
      have hwb := hw w (by simp)
      obtain ⟨ih1, ih2⟩ := ih ws (by simpa using h) (fun x hx => hv x (by simp [hx]))
        (fun x hx => hw x (by simp [hx]))
      rw [dot_cons, List.sum_cons]
      constructor
      · nlinarith [hvb.1, hvb.2, hwb]
      · nlinarith [hvb.1, hvb.2, hwb]

/-- Any value the documented per-move rule recomputes from a `[-1, 1]`-bounded
table is itself in `[-1, 1]` (given oracle scores in `[0, 1]`). -/
theorem value_m_bounds (ctx : SearchCtx)
    (hr : ∀ p : Nat, 0 ≤ ctx.engine.score p ∧ ctx.engine.score p ≤ 1)
    {t : EMap} (ht : scoreBounded t) (pos m : Nat) {x : ℚ}
    (h : value_m ctx t pos m = some x) : -1 ≤ x ∧ x ≤ 1 := by
  unfold value_m at h
  by_cases hbc : ctx.database.get_board_count (ctx.rules.after pos m) < ctx.treshold
  · rw [if_pos hbc] at h
    cases h
    have h1 := (hr (ctx.rules.after pos m)).1
    have h2 := (hr (ctx.rules.after pos m)).2
    constructor <;> linarith
  · rw [if_neg hbc] at h
    cases ho : omap (fun r => escore t (ctx.rules.after (ctx.rules.after pos m) r))
        (ctx.rules.legalMoves (ctx.rules.after pos m)) with
    | none =>
      rw [show omap (fun r => escore t (ctx.rules.after (ctx.rules.after pos m) r))
          (ctx.rules.legalMoves (ctx.rules.after pos m)) = none from ho] at h
      cases h
    | some vals =>
      rw [show omap (fun r => escore t (ctx.rules.after (ctx.rules.after pos m) r))
          (ctx.rules.legalMoves (ctx.rules.after pos m)) = some vals from ho] at h
      dsimp only at h
      by_cases hz : (weights ctx (ctx.rules.after pos m)).sum = 0
      · rw [if_pos hz] at h
        cases h
      · rw [if_neg hz] at h
        cases h
        have hvb : ∀ v ∈ vals, -1 ≤ v ∧ v ≤ 1 := by
          intro v hv
          obtain ⟨r, _, hfr⟩ := omap_mem ho v hv
          unfold escore at hfr
          cases hgr : eget t (ctx.rules.after (ctx.rules.after pos m) r) with
          | none => rw [hgr] at hfr; cases hfr
          | some e =>
            rw [hgr] at hfr
            cases e with
            | opn => cases hfr
            | resolved mv s =>
              cases hfr
              exact ht _ mv v hgr
        have hwb : ∀ w ∈ weights ctx (ctx.rules.after pos m), 0 ≤ w := by
          intro w hw
          obtain ⟨r, _, hwr⟩ := List.mem_map.mp hw
          rw [← hwr]
          positivity
        have hlen : vals.length = (weights ctx (ctx.rules.after pos m)).length := by
          rw [omap_length ho]
          simp [weights]
        obtain ⟨hd1, hd2⟩ := dot_bounds vals _ hlen hvb hwb
        have hsnn : 0 ≤ (weights ctx (ctx.rules.after pos m)).sum :=
          List.sum_nonneg hwb
        have hspos : 0 < (weights ctx (ctx.rules.after pos m)).sum :=
          lt_of_le_of_ne hsnn (Ne.symm hz)
        constructor
        · rw [neg_le, ← neg_div]
          exact (div_le_one hspos).mpr (by linarith)
        · exact (div_le_one hspos).mpr hd2

/-- `foldl max` over a list starting at `a` yields an element of `a :: l`
that bounds `a` and every element. -/
theorem foldl_max_mem :
    ∀ (l : List ℚ) (a : ℚ),
      (l.foldl max a ∈ a :: l) ∧ a ≤ l.foldl max a ∧ ∀ x ∈ l, x ≤ l.foldl max a := by
  intro l
  induction l with
  | nil =>
    intro a
    simp
  | cons b l ih =>
    intro a
    obtain ⟨ihm, iha, ihub⟩ := ih (max a b)
    refine ⟨?_, ?_, ?_⟩
    · rcases List.mem_cons.mp ihm with hm | hm
      · rcases max_choice a b with hab | hab
        · simp only [List.foldl_cons]
          rw [hm, hab]
          simp
        · simp only [List.foldl_cons]
          rw [hm, hab]
          simp
      · simp only [List.foldl_cons]
        simp [hm]
    · simp only [List.foldl_cons]
      exact le_trans (le_max_left a b) iha
    · intro x hx
      simp only [List.foldl_cons]
      rcases List.mem_cons.mp hx with hx' | hx'
      · subst hx'
        exact le_trans (le_max_right a x) iha
      · exact ihub x hx'

/-! ## Claim C1 (amended): resolved values are the maximum of the per-move
values, in cycle-free runs -/

/-- C1 amended: in any completed search run *in which no repetition cycle
was detected* (ghost flag `false`), every position resolved with board count
at or above the threshold and at least one legal move stores exactly the
maximum, over its legal moves, of the per-move values recomputed from the
final memoization table by the documented negation/averaging rule.  (The
restriction to cycle-free runs is forced: `c1_counterexample` shows the
recomputation differs after a cycle, because the cycle's oracle resolution
is later overwritten.) -/
theorem c1_amended_resolved_value_is_max (ctx : SearchCtx)
    (hr : ∀ p : Nat, 0 ≤ ctx.engine.score p ∧ ctx.engine.score p ≤ 1)
    (fuel : Nat) (root : Nat) (T : EMap) (v : ℚ)
    (h : search_aux ctx fuel [] root = some (T, v, false))
    (pos : Nat) (mv : Option Nat) (s : ℚ)
    (he : eget T pos = some (EEntry.resolved mv s))
    (hbc : ctx.treshold ≤ ctx.database.get_board_count pos)
    (hne : ctx.rules.legalMoves pos ≠ []) :
    ∃ vals, omap (value_m ctx T pos) (ctx.rules.legalMoves pos) = some vals
      ∧ s ∈ vals ∧ ∀ x ∈ vals, x ≤ s := by
  obtain ⟨_, _, hcf⟩ := search_aux_main ctx fuel [] root T v false h
  obtain ⟨_, hgpres⟩ := hcf rfl
  have hg : goodTable ctx T := hgpres (by intro k mv' s' hk; simp [eget] at hk)
  obtain ⟨vals, hov, hfold⟩ := hg pos mv s he hbc
  obtain ⟨hTb, _, _⟩ := search_aux_bounds ctx hr fuel [] root T v false h
    (by intro k mv' s' hk; simp [eget] at hk)
  have hvb : ∀ x ∈ vals, -1 ≤ x := by
    intro x hx
    obtain ⟨m, _, hvm⟩ := omap_mem hov x hx
    exact (value_m_bounds ctx hr hTb pos m hvm).1
  have hvne : vals ≠ [] := by
    intro h0
    apply hne
    have := omap_length hov
    rw [h0] at this
    exact List.length_eq_zero.mp this.symm
  obtain ⟨hm, _, hub⟩ := foldl_max_mem vals (-1)
  refine ⟨vals, hov, ?_, ?_⟩
  · rcases List.mem_cons.mp hm with hm' | hm'
    · -- the fold equals the initial value -1: then the head of vals is -1 as well
      rcases List.exists_mem_of_ne_nil vals hvne with ⟨x0, hx0⟩
      have h1 : x0 ≤ vals.foldl max (-1) := hub x0 hx0
      have h2 : -1 ≤ x0 := hvb x0 hx0
      have hx0v : x0 = s := by
        rw [hfold, hm']
        rw [hm'] at h1
        linarith
      rw [← hx0v]
      exact hx0
    · rw [hfold]
      exact hm'
  · intro x hx
    rw [hfold]
    exact hub x hx

/-- Witness for C1 (amended) on the cycle-free run `c7Ctx`: the stored value
`-(1/3)` is the maximum of the two per-move values. -/
theorem c1_witness :
    ∃ vals, omap (value_m c7Ctx [(0, EEntry.resolved (some 11) (-(1/3)))] 0)
        (c7Ctx.rules.legalMoves 0) = some vals
      ∧ -(1/3 : ℚ) ∈ vals ∧ ∀ x ∈ vals, x ≤ -(1/3 : ℚ) :=
  c1_amended_resolved_value_is_max c7Ctx
    (by
      intro p
      norm_num [c7Ctx]
      constructor
      · split
        · norm_num
        · split <;> norm_num
      · split
        · norm_num
        · split <;> norm_num)
    5 0 [(0, EEntry.resolved (some 11) (-(1/3)))] (-(1/3))
    (by norm_num [search_aux, moveLoop, replyLoop, c7Ctx, eget, eset,
      GameDatabase.get_board_count, GameDatabase.get_move_count])
    0 (some 11) (-(1/3))
    (by norm_num [eget])
    (by norm_num [c7Ctx, GameDatabase.get_board_count])
    (by simp [c7Ctx])

/-! ## Claim C4: the Black top-level averaging step -/

/-- The ghost cycle flag never resets across the Black root loop. -/
theorem blackLoop_true (ctx : SearchCtx) (fuel : Nat) (root : Nat) :
    ∀ (l : List (ℚ × Nat)) (T : EMap) (s : ℚ) (T' : EMap) (s' : ℚ) (c' : Bool),
      blackLoop ctx fuel root l T s true = some (T', s', c') → c' = true := by
  intro l
  induction l with
  | nil =>
    intro T s T' s' c' h
    simp only [blackLoop] at h
    cases h
    rfl
  | cons pm l ih =>
    intro T s T' s' c' h
    obtain ⟨p, m⟩ := pm
    simp only [blackLoop] at h
    cases hsr : search_aux ctx fuel T (ctx.rules.after root m) with
    | none => rw [hsr] at h; cases h
    | some res =>
      obtain ⟨T1, val, c⟩ := res
      rw [hsr] at h
      dsimp only at h
      rw [Bool.true_or] at h
      exact ih T1 _ T' s' c' h

/-- Characterization of a cycle-free Black root loop: the accumulated score
is the probability-weighted dot product of the values now stored for the
positions after each root move. -/
theorem blackLoop_main (ctx : SearchCtx) (fuel : Nat) (root : Nat) :
    ∀ (l : List (ℚ × Nat)) (T : EMap) (s : ℚ) (T' : EMap) (s' : ℚ),
      blackLoop ctx fuel root l T s false = some (T', s', false) →
      keeps T T'
      ∧ ∃ vals, omap (fun pm : ℚ × Nat => escore T' (ctx.rules.after root pm.2)) l = some vals
          ∧ s' = s + dot (l.map Prod.fst) vals := by
  intro l
  induction l with
  | nil =>
    intro T s T' s' h
    simp only [blackLoop] at h
    cases h
    exact ⟨fun k mv s hh => hh, [], rfl, by simp [dot_nil]⟩
  | cons pm l ih =>
    intro T s T' s' h
    obtain ⟨p, m⟩ := pm
    simp only [blackLoop] at h
    cases hsr : search_aux ctx fuel T (ctx.rules.after root m) with
    | none => rw [hsr] at h; cases h
    | some res =>
      obtain ⟨T1, val, c⟩ := res
      rw [hsr] at h
      dsimp only at h
      rw [Bool.false_or] at h
      cases c with
      | true => exact absurd (blackLoop_true ctx fuel root l T1 _ T' s' false h) (by simp)
      | false =>
        obtain ⟨hk1, hpost, _⟩ := search_aux_main ctx fuel T _ T1 val false hsr
        obtain ⟨hk2, vals, hov, hs'⟩ := ih T1 _ T' s' h
        obtain ⟨mv, hmv⟩ := hpost
        refine ⟨fun k mv' s'' hh => hk2 _ _ _ (hk1 _ _ _ hh), val :: vals, ?_, ?_⟩
        · have hesc : escore T' (ctx.rules.after root m) = some val := by
            unfold escore
            rw [hk2 _ _ _ hmv]
          simp only [omap, hesc, hov]
        · rw [hs', List.map_cons, dot_cons]
          ring

/-- C4: when the analyzed side is Black, a cycle-free top-level search stores
for the root a synthetic entry `(None, v)` where `v` is the sum over the
root's `most_common` moves (nonzero human counts, normalized frequencies, no
Laplace smoothing) of the move's probability times the memoized value of the
resulting position, read back from the final table. -/
theorem c4_black_root_entry (ctx : SearchCtx) (fuel : Nat) (root : Nat) (T : EMap)
    (h : search_top ctx root false fuel = some (T, false))
    (hd : ∀ pm ∈ ctx.most_common root, ctx.rules.after root pm.2 ≠ root) :
    ∃ vals, omap (fun pm : ℚ × Nat => escore T (ctx.rules.after root pm.2))
        (ctx.most_common root) = some vals
      ∧ eget T root = some (EEntry.resolved none
          (dot ((ctx.most_common root).map Prod.fst) vals)) := by
  unfold search_top at h
  rw [if_neg (by simp)] at h
  cases hbl : blackLoop ctx fuel root (ctx.most_common root) [] 0 false with
  | none => rw [hbl] at h; cases h
  | some res =>
    obtain ⟨T1, sc, cyc⟩ := res
    rw [hbl] at h
    dsimp only at h
    cases h
    obtain ⟨hk, vals, hov, hs⟩ := blackLoop_main ctx fuel root _ [] 0 T1 sc hbl
    refine ⟨vals, ?_, ?_⟩
    · refine omap_mono_mem ?_ hov
      intro pm hpm v hv
      unfold escore at hv ⊢
      rw [eget_eset_ne T1 root _ _ (fun hh => hd pm hpm hh.symm)]
      exact hv
    · rw [eget_eset_self]
      rw [hs]
      norm_num

/-- Witness for C4 on the concrete Black run over `wCtx`: the root entry is
`(None, 1/2)` with probabilities `3/4` and `1/4`. -/
theorem c4_witness :
    ∃ vals, omap (fun pm : ℚ × Nat => escore
          [(10, EEntry.resolved (some 7) (1/2)), (11, EEntry.resolved (some 7) (1/2)),
           (0, EEntry.resolved none (1/2))]
          (wCtx.rules.after 0 pm.2))
        (wCtx.most_common 0) = some vals
      ∧ eget [(10, EEntry.resolved (some 7) (1/2)), (11, EEntry.resolved (some 7) (1/2)),
           (0, EEntry.resolved none (1/2))] 0
        = some (EEntry.resolved none (dot ((wCtx.most_common 0).map Prod.fst) vals)) :=
  c4_black_root_entry wCtx 5 0
    [(10, EEntry.resolved (some 7) (1/2)), (11, EEntry.resolved (some 7) (1/2)),
     (0, EEntry.resolved none (1/2))]
    (by norm_num [search_top, blackLoop, search_aux, moveLoop, replyLoop,
      SearchCtx.most_common, List.insertionSort, List.orderedInsert, List.filterMap_cons,
      wCtx, wRules, wEngine, eget, eset,
      GameDatabase.get_board_count, GameDatabase.get_move_count])
    (by
      intro pm hpm
      have hmc : wCtx.most_common 0 = [(3/4, 10), (1/4, 11)] := by
        norm_num [SearchCtx.most_common, List.insertionSort, List.orderedInsert,
          List.filterMap_cons, wCtx, wRules, GameDatabase.get_move_count]
      rw [hmc] at hpm
      rcases List.mem_cons.mp hpm with hh | hh
      · subst hh; norm_num [wCtx, wRules]
      · simp at hh; subst hh; norm_num [wCtx, wRules])

/-! ## PV-extraction machinery for C8 (amended) -/

/-- The inline advance past a stored move in `push_children` coincides with
`stepPos`. -/
theorem stepPos_match (rules : GameRules) (pos : Nat) (mv : Option Nat) :
    (match mv with
      | some m => rules.after pos m
      | none => pos) = stepPos rules pos mv := by
  cases mv <;> rfl

/-- `pushMoves` only appends items, leaves the nodes alone, and every new
item's position is one `most_common` continuation past `pos2`. -/
theorem pushMoves_mem (ctx : PVCtx) (curP : ℚ) (pos2 : Nat) (parentIdx : Nat) :
    ∀ (l : List (ℚ × Nat)) (q : List QItem) (cnt : Nat),
      ∀ it ∈ (pushMoves ctx curP pos2 parentIdx l q cnt).1,
        it ∈ q ∨ ∃ p m, (p, m) ∈ l ∧ it.pos = ctx.rules.after pos2 m := by
  intro l
  induction l with
  | nil =>
    intro q cnt it hit
    exact Or.inl hit
  | cons pm l ih =>
    intro q cnt it hit
    obtain ⟨p, m⟩ := pm
    simp only [pushMoves] at hit
    rcases ih _ _ it hit with hin | ⟨p', m', hm', hpos⟩
    · rcases List.mem_append.mp hin with hin' | hin'
      · exact Or.inl hin'
      · simp only [List.mem_singleton] at hin'
        subst hin'
        exact Or.inr ⟨p, m, by simp, rfl⟩
    · exact Or.inr ⟨p', m', by simp [hm'], hpos⟩

/-- Soundness of one expansion step: starting from sound frontier and nodes,
`push_children` keeps them sound. -/
theorem push_children_sound (ctx : PVCtx) (q : List QItem) (nodes : List PVNode)
    (curP : ℚ) (pos : Nat) (parent : Option Nat) (cnt : Nat)
    (q' : List QItem) (nodes' : List PVNode) (cnt' : Nat)
    (hreach : AltReach ctx pos)
    (hn : ∀ nd ∈ nodes, nd.isEngineNode = true →
      (∃ mv s, eget ctx.etree nd.pos = some (EEntry.resolved mv s)) ∧ AltReach ctx nd.pos)
    (hq : ∀ it ∈ q, AltReach ctx it.pos)
    (h : push_children ctx q nodes curP pos parent cnt = some (q', nodes', cnt')) :
    (∀ nd ∈ nodes', nd.isEngineNode = true →
      (∃ mv s, eget ctx.etree nd.pos = some (EEntry.resolved mv s)) ∧ AltReach ctx nd.pos)
    ∧ (∀ it ∈ q', AltReach ctx it.pos) := by
  unfold push_children at h
  cases he : eget ctx.etree pos with
  | none =>
    rw [he] at h
    cases h
    exact ⟨hn, hq⟩
  | some e =>
    rw [he] at h
    cases e with
    | opn => cases h
    | resolved mv s =>
      dsimp only at h
      cases h
      constructor
      · intro nd hnd
        rcases List.mem_append.mp hnd with hin | hin
        · exact hn nd hin
        · simp only [List.mem_singleton] at hin
          subst hin
          intro _
          exact ⟨⟨mv, s, he⟩, hreach⟩
      · intro it hit
        rcases pushMoves_mem ctx curP _ _ _ q cnt it hit with hin | ⟨p, m, hm, hpos⟩
        · exact hq it hin
        · rw [hpos, stepPos_match]
          rw [stepPos_match] at hm
          exact AltReach.step pos mv s p m hreach he hm

/-- The selected item of `popBest`'s fold is one of the candidates. -/
theorem foldl_best_mem :
    ∀ (xs : List QItem) (x : QItem),
      xs.foldl (fun acc y => if qBetter y acc then y else acc) x ∈ x :: xs := by
  intro xs
  induction xs with
  | nil => intro x; simp
  | cons y xs ih =>
    intro x
    simp only [List.foldl_cons]
    by_cases hb : qBetter y x
    · rw [if_pos hb]
      rcases List.mem_cons.mp (ih y) with hm | hm
      · simp [hm]
      · simp [hm]
    · rw [if_neg hb]
      rcases List.mem_cons.mp (ih x) with hm | hm
      · simp [hm]
      · simp [hm]

/-- `popBest` pops a member and returns a sublist of the frontier. -/
theorem popBest_mem {q : List QItem} {it : QItem} {q' : List QItem}
    (h : popBest q = some (it, q')) : it ∈ q ∧ ∀ x ∈ q', x ∈ q := by
  cases q with
  | nil => cases h
  | cons x xs =>
    simp only [popBest] at h
    cases h
    exact ⟨foldl_best_mem xs x, fun y hy => List.erase_subset _ _ hy⟩

/-- Soundness of the extraction loop. -/
theorem pv_loop_sound (ctx : PVCtx) :
    ∀ (n : Nat) (q : List QItem) (nodes : List PVNode) (cnt : Nat) (L : List PVNode),
      pv_loop ctx n q nodes cnt = some L →
      (∀ nd ∈ nodes, nd.isEngineNode = true →
        (∃ mv s, eget ctx.etree nd.pos = some (EEntry.resolved mv s)) ∧ AltReach ctx nd.pos) →
      (∀ it ∈ q, AltReach ctx it.pos) →
      ∀ nd ∈ L, nd.isEngineNode = true →
        (∃ mv s, eget ctx.etree nd.pos = some (EEntry.resolved mv s)) ∧ AltReach ctx nd.pos := by
  intro n
  induction n with
  | zero =>
    intro q nodes cnt L h hn hq
    simp only [pv_loop] at h
    cases h
    exact hn
  | succ n ih =>
    intro q nodes cnt L h hn hq
    simp only [pv_loop] at h
    cases hpop : popBest q with
    | none =>
      rw [hpop] at h
      cases h
      exact hn
    | some res =>
      obtain ⟨it, q'⟩ := res
      rw [hpop] at h
      dsimp only at h
      obtain ⟨hitq, hsub⟩ := popBest_mem hpop
      cases hpc : push_children ctx q' (nodes ++ [⟨it.parent, it.p, some it.move, it.pos, false⟩])
          it.key it.pos (some nodes.length) cnt with
      | none => rw [hpc] at h; cases h
      | some res2 =>
        obtain ⟨q2, nodes2, cnt2⟩ := res2
        rw [hpc] at h
        obtain ⟨hn2, hq2⟩ := push_children_sound ctx q' _ it.key it.pos _ cnt q2 nodes2 cnt2
          (hq it hitq)
          (by
            intro nd hnd
            rcases List.mem_append.mp hnd with hin | hin
            · exact hn nd hin
            · simp only [List.mem_singleton] at hin
              subst hin
              intro hfalse
              cases hfalse)
          (fun x hx => hq x (hsub x hx))
          hpc
        exact ih q2 nodes2 cnt2 L h hn2 hq2

/-- Each loop iteration materializes at most two nodes. -/
theorem push_children_len (ctx : PVCtx) (q : List QItem) (nodes : List PVNode)
    (curP : ℚ) (pos : Nat) (parent : Option Nat) (cnt : Nat)
    (q' : List QItem) (nodes' : List PVNode) (cnt' : Nat)
    (h : push_children ctx q nodes curP pos parent cnt = some (q', nodes', cnt')) :
    nodes'.length ≤ nodes.length + 1 := by
  unfold push_children at h
  cases he : eget ctx.etree pos with
  | none =>
    rw [he] at h
    cases h
    omega
  | some e =>
    rw [he] at h
    cases e with
    | opn => cases h
    | resolved mv s =>
      dsimp only at h
      cases h
      simp

/-- The extraction loop materializes at most `2 n` nodes beyond the seed. -/
theorem pv_loop_len (ctx : PVCtx) :
    ∀ (n : Nat) (q : List QItem) (nodes : List PVNode) (cnt : Nat) (L : List PVNode),
      pv_loop ctx n q nodes cnt = some L → L.length ≤ nodes.length + 2 * n := by
  intro n
  induction n with
  | zero =>
    intro q nodes cnt L h
    simp only [pv_loop] at h
    cases h
    omega
  | succ n ih =>
    intro q nodes cnt L h
    simp only [pv_loop] at h
    cases hpop : popBest q with
    | none =>
      rw [hpop] at h
      cases h
      omega
    | some res =>
      obtain ⟨it, q'⟩ := res
      rw [hpop] at h
      dsimp only at h
      cases hpc : push_children ctx q' (nodes ++ [⟨it.parent, it.p, some it.move, it.pos, false⟩])
          it.key it.pos (some nodes.length) cnt with
      | none => rw [hpc] at h; cases h
      | some res2 =>
        obtain ⟨q2, nodes2, cnt2⟩ := res2
        rw [hpc] at h
        have h1 := push_children_len ctx q' _ it.key it.pos _ cnt q2 nodes2 cnt2 hpc
        have h2 := ih q2 nodes2 cnt2 L h
        simp only [List.length_append, List.length_singleton] at h1
        omega

/-! ## Claim C8 (amended): what the PV-tree extraction guarantees -/

/-- C8 amended.  (1) With `n = 0` the extraction returns a tree consisting of
exactly the root's engine node when the root is memoized, and the empty tree
only when the root has no entry.  (2) For every `n`, every engine node of the
extracted tree corresponds to a position with a memoized entry that is
reachable via the move/counter-move alternation rule (soundness), and the
tree holds at most `1 + 2 n` nodes; completeness and uniqueness fail in
general (see `c8_counterexample`): with `n` equal to the number of resolved
positions, a reachable resolved position can be missed, and under
transpositions a resolved position's node can appear twice. -/
theorem c8_amended_pv_tree :
    (∀ ctx : PVCtx, eget ctx.etree ctx.root = none → make_pv_tree ctx 0 = some [])
    ∧ (∀ (ctx : PVCtx) (mv : Option Nat) (s : ℚ),
        eget ctx.etree ctx.root = some (EEntry.resolved mv s) →
        make_pv_tree ctx 0 = some [⟨none, s, mv, ctx.root, true⟩])
    ∧ (∀ (ctx : PVCtx) (n : Nat) (L : List PVNode), make_pv_tree ctx n = some L →
        (∀ nd ∈ L, nd.isEngineNode = true →
          (∃ mv s, eget ctx.etree nd.pos = some (EEntry.resolved mv s)) ∧ AltReach ctx nd.pos)
        ∧ L.length ≤ 1 + 2 * n) := by
  refine ⟨?_, ?_, ?_⟩
  · intro ctx h
    unfold make_pv_tree push_children
    rw [h]
    rfl
  · intro ctx mv s h
    unfold make_pv_tree push_children
    rw [h]
    dsimp only
    rfl
  · intro ctx n L h
    unfold make_pv_tree at h
    cases hpc : push_children ctx [] [] 1 ctx.root none 0 with
    | none => rw [hpc] at h; cases h
    | some res =>
      obtain ⟨q0, nodes0, cnt0⟩ := res
      rw [hpc] at h
      obtain ⟨hn0, hq0⟩ := push_children_sound ctx [] [] 1 ctx.root none 0 q0 nodes0 cnt0
        AltReach.root (by intro nd hnd; cases hnd) (by intro it hit; cases hit) hpc
      have hlen0 := push_children_len ctx [] [] 1 ctx.root none 0 q0 nodes0 cnt0 hpc
      constructor
      · exact pv_loop_sound ctx n q0 nodes0 cnt0 L h hn0 hq0
      · have := pv_loop_len ctx n q0 nodes0 cnt0 L h
        simp only [List.length_nil] at hlen0
        omega

/-- Witness for C8 (amended): the `n = 0` extraction over `c8Ctx` is exactly
the root node, and the `n = 2` extraction is sound and within the size
bound. -/
theorem c8_witness :
    make_pv_tree c8Ctx 0 = some [⟨none, 1/2, some 10, 0, true⟩]
    ∧ ((∀ nd ∈ [(⟨none, 1/2, some 10, 0, true⟩ : PVNode),
           ⟨some 0, 1/2, some 30, 3, false⟩,
           ⟨some 0, 3/10, some 31, 4, false⟩], nd.isEngineNode = true →
          (∃ mv s, eget c8Ctx.etree nd.pos = some (EEntry.resolved mv s))
            ∧ AltReach c8Ctx nd.pos)
        ∧ ([(⟨none, 1/2, some 10, 0, true⟩ : PVNode),
           ⟨some 0, 1/2, some 30, 3, false⟩,
           ⟨some 0, 3/10, some 31, 4, false⟩] : List PVNode).length ≤ 1 + 2 * 2) := by
  constructor
  · exact c8_amended_pv_tree.2.1 c8Ctx (some 10) (1/2) (by norm_num [c8Ctx, c8T, eget])
  · exact c8_amended_pv_tree.2.2 c8Ctx 2 _
      (by norm_num [make_pv_tree, pv_loop, push_children, pushMoves, popBest, qBetter,
        SearchCtx.most_common, List.insertionSort, List.orderedInsert, List.filterMap_cons,
        c8Ctx, c8Rules, c8Db, c8T, cycEngine, eget, GameDatabase.get_move_count, stepPos,
        List.erase, List.foldl])
